import Mathlib

/-!
# docs CMS backend (`docs.go`): path containment, bearer authentication,
# storage operations and search

Shallow embedding of `src/docs.go`.

* A Go `string` (paths, names, header values, queries) is modelled by the
  list of its characters (`GoString`); only strings that are valid UTF-8 are
  covered. File contents and request bodies are byte sequences (`Bytes`).
* The standard-library functions the handlers call (`strings.HasPrefix`,
  `strings.TrimSpace`, `filepath.Clean`, `filepath.Join`, `filepath.Dir`,
  `filepath.Ext`, `filepath.Rel`, `filepath.Walk`, `bufio.Scanner`, the `os`
  file operations, `ParseMultipartForm`, the UTF-8 decoding of `string(data)`)
  are modelled after their documented Unix behaviour; creating a file or a
  directory fails on a path with a NUL byte, over `PATH_MAX` bytes or with an
  element over `NAME_MAX` bytes (`osPathOK`).
* The file system is a tree of directories and regular files rooted at `/`;
  handlers are functions from the tree before the request to the response and
  the tree after it.
-/

namespace Docs

/-! ## Strings -/

/-- A Go string, as the sequence of its characters. -/
abbrev GoString := List Char

/-- A Go byte slice: a file content or a request body. -/
abbrev Bytes := List UInt8

/-- The bytes of a string literal (UTF-8). -/
def bytesOf (s : String) : Bytes := s.toList.flatMap String.utf8EncodeChar

/-- The replacement character U+FFFD (`utf8.RuneError`). -/
def runeError : Char := Char.ofNat 0xFFFD

/-- Whether a byte lies between `lo` and `hi`, both included. -/
def inRange (b : UInt8) (lo hi : Nat) : Bool := decide (lo ≤ b.toNat) && decide (b.toNat ≤ hi)

/-- Model of `utf8.DecodeRune` on the byte `b0` followed by `rest`: the rune and
the number of bytes it takes after the first. An encoding that is invalid
(wrong lead byte, continuation byte outside the accepted range, overlong form,
surrogate, beyond U+10FFFF) or cut short gives `RuneError` and takes the first
byte only. -/
def decodeRune (b0 : UInt8) (rest : Bytes) : Char × Nat :=
  if b0.toNat < 0x80 then (Char.ofNat b0.toNat, 0)
  else if inRange b0 0xC2 0xDF then
    match rest with
    | b1 :: _ =>
      if inRange b1 0x80 0xBF then
        (Char.ofNat ((b0.toNat - 0xC0) * 64 + (b1.toNat - 0x80)), 1)
      else (runeError, 0)
    | _ => (runeError, 0)
  else if inRange b0 0xE0 0xEF then
    match rest with
    | b1 :: b2 :: _ =>
      if inRange b1 (if b0.toNat = 0xE0 then 0xA0 else 0x80)
          (if b0.toNat = 0xED then 0x9F else 0xBF) && inRange b2 0x80 0xBF then
        (Char.ofNat ((b0.toNat - 0xE0) * 4096 + (b1.toNat - 0x80) * 64 + (b2.toNat - 0x80)), 2)
      else (runeError, 0)
    | _ => (runeError, 0)
  else if inRange b0 0xF0 0xF4 then
    match rest with
    | b1 :: b2 :: b3 :: _ =>
      if inRange b1 (if b0.toNat = 0xF0 then 0x90 else 0x80)
          (if b0.toNat = 0xF4 then 0x8F else 0xBF) && inRange b2 0x80 0xBF &&
          inRange b3 0x80 0xBF then
        (Char.ofNat ((b0.toNat - 0xF0) * 262144 + (b1.toNat - 0x80) * 4096 +
          (b2.toNat - 0x80) * 64 + (b3.toNat - 0x80)), 3)
      else (runeError, 0)
    | _ => (runeError, 0)
  else (runeError, 0)

/-- The loop `for _, r := range string(data)`: `skip` bytes are passed over as
part of the rune before, then runes are decoded one after the other. -/
def decodeFrom : Nat → Bytes → GoString
  | _, [] => []
  | skip + 1, _ :: rest => decodeFrom skip rest
  | 0, b0 :: rest => (decodeRune b0 rest).1 :: decodeFrom (decodeRune b0 rest).2 rest

/-- The runes of `string(data)` as Go reads them: the UTF-8 decoding of the
bytes, every byte that starts no valid encoding read as `RuneError`. This is
the text `strings.ToLower` lower-cases. -/
def decodeUTF8 (data : Bytes) : GoString := decodeFrom 0 data

/-- Model of `strings.HasPrefix(s, prefix)`. -/
def HasPrefix (s pre : GoString) : Bool := pre.isPrefixOf s

/-- Model of `unicode.IsSpace`: the White_Space code points. -/
def isSpace (c : Char) : Bool :=
  c = '\t' || c = '\n' || c.toNat = 0x0B || c.toNat = 0x0C || c = '\r' || c = ' ' ||
  c.toNat = 0x85 || c.toNat = 0xA0 || c.toNat = 0x1680 ||
  (0x2000 ≤ c.toNat && c.toNat ≤ 0x200A) ||
  c.toNat = 0x2028 || c.toNat = 0x2029 || c.toNat = 0x202F || c.toNat = 0x205F ||
  c.toNat = 0x3000

/-- Model of `strings.TrimSpace`: leading and trailing white space removed. -/
def TrimSpace (s : GoString) : GoString :=
  ((s.dropWhile isSpace).reverse.dropWhile isSpace).reverse

/-- Model of `strings.Contains(s, substr)`. -/
def Contains (s substr : GoString) : Bool :=
  s.tails.any (fun t => substr.isPrefixOf t)

/-- Model of `strings.ToLower`: every character mapped by the lower-casing
table `lower` (Go: `unicode.ToLower`), taken as a parameter. -/
def ToLower (lower : Char → Char) (s : GoString) : GoString := s.map lower

/-! ## Paths (`path/filepath`, Unix) -/

/-- The path separator. -/
def Separator : Char := '/'

/-- The parent-directory path element `..`. -/
def dotdot : GoString := ['.', '.']

/-- The current-directory path element `.`. -/
def dot : GoString := ['.']

/-- Model of `strings.Split(path, "/")`: the elements between separators, the
empty ones included. -/
def splitPath : GoString → List GoString
  | [] => [[]]
  | c :: cs =>
    if c = Separator then [] :: splitPath cs
    else
      match splitPath cs with
      | [] => [[c]]
      | seg :: rest => (c :: seg) :: rest

/-- Model of `strings.Join(elems, "/")`. -/
def joinSep : List GoString → GoString
  | [] => []
  | [e] => e
  | e :: es => e ++ Separator :: joinSep es

/-- One iteration of the loop of `filepath.Clean` over a path element; `out` is
the stack of elements written so far, the last one first. Empty and `.`
elements are skipped; `..` removes the last real element, is dropped at the
root of a rooted path, and is kept in front of a path that is not rooted. -/
def cleanStep (rooted : Bool) (out : List GoString) (seg : GoString) : List GoString :=
  if seg = [] ∨ seg = dot then out
  else if seg = dotdot then
    match out with
    | [] => if rooted then [] else [dotdot]
    | top :: rest =>
      if top = dotdot then (if rooted then out else dotdot :: out) else rest
  else seg :: out

/-- The elements `filepath.Clean` keeps, in path order. -/
def cleanSegs (rooted : Bool) (segs : List GoString) : List GoString :=
  (segs.foldl (cleanStep rooted) []).reverse

/-- The path `filepath.Clean` writes for the kept elements. -/
def renderPath (rooted : Bool) (segs : List GoString) : GoString :=
  if rooted then Separator :: joinSep segs
  else if segs = [] then dot else joinSep segs

/-- Model of `filepath.IsAbs` (Unix): the path starts with a separator. -/
def IsAbs (path : GoString) : Bool :=
  match path with
  | c :: _ => c = Separator
  | [] => false

/-- Model of `filepath.Clean` (Unix): the shortest path equivalent to `path` by
purely lexical processing. -/
def Clean (path : GoString) : GoString :=
  if path = [] then dot
  else renderPath (IsAbs path) (cleanSegs (IsAbs path) (splitPath path))

/-- Model of `filepath.Join`: the elements from the first non-empty one on are
joined with separators and cleaned; all elements empty gives the empty string. -/
def Join (elem : List GoString) : GoString :=
  match elem.dropWhile (fun e => e = []) with
  | [] => []
  | es => Clean (joinSep es)

/-- The non-empty elements of a path: the names the operating system resolves
one after the other. -/
def pathSegments (path : GoString) : List GoString :=
  (splitPath path).filter (fun s => s ≠ [])

/-- Containment by whole path segments: `path` is `root` itself or a descendant
of it. -/
def isWithin (root path : GoString) : Prop :=
  pathSegments root <+: pathSegments path

instance (root path : GoString) : Decidable (isWithin root path) := by
  unfold isWithin; infer_instance

/-- The containment check of `pageHandler`, `dirHandler` and `uploadHandler`:
`strings.HasPrefix(filepath.Join(storagePath, relPath), storagePath)`. -/
def containmentCheck (storagePath relPath : GoString) : Bool :=
  HasPrefix (Join [storagePath, relPath]) storagePath

/-- Model of `filepath.Dir`: the path up to and including its last separator,
cleaned. -/
def Dir (path : GoString) : GoString :=
  Clean (path.reverse.dropWhile (fun c => c ≠ Separator)).reverse

/-- Model of `filepath.Base`: the last element of the path, trailing separators
removed first; `.` for the empty path and `/` for a path of separators only. -/
def Base (path : GoString) : GoString :=
  if path = [] then dot
  else
    let last := ((path.reverse.dropWhile (fun c => c = Separator)).takeWhile
      (fun c => c ≠ Separator)).reverse
    if last = [] then [Separator] else last

/-- Model of `filepath.Ext`: the suffix of the last element of the path that
starts at its final dot; empty when that element has no dot. -/
def Ext (path : GoString) : GoString :=
  let last := path.reverse.takeWhile (fun c => c ≠ Separator)
  if '.' ∈ last then (last.takeWhile (fun c => c ≠ '.') ++ ['.']).reverse else []

/-- The elements `filepath.Rel` compares for a cleaned path: a rooted path
starts with an empty element. -/
def relElems (path : GoString) : List GoString :=
  if IsAbs path then [] :: pathSegments path else pathSegments path

/-- The elements of two paths after their common leading elements. -/
def dropCommon : List GoString → List GoString → List GoString × List GoString
  | b :: bs, t :: ts => if b = t then dropCommon bs ts else (b :: bs, t :: ts)
  | bs, ts => (bs, ts)

/-- Model of `filepath.Rel(basepath, targpath)`: both paths are cleaned, their
common leading elements dropped, and the result climbs one `..` for every base
element left before descending into the target elements left. `none` is the
error result. -/
def Rel (basepath targpath : GoString) : Option GoString :=
  let base := Clean basepath
  let targ := Clean targpath
  if targ = base then some dot
  else
    let base := if base = dot then [] else base
    if IsAbs base ≠ IsAbs targ then none
    else
      match dropCommon (relElems base) (relElems targ) with
      | ([], ts) => some (joinSep ts)
      | (b :: bs, []) => some (joinSep ((b :: bs).map (fun _ => dotdot)))
      | (b :: bs, t :: ts) =>
        if b = dotdot then none
        else some (joinSep ((b :: bs).map (fun _ => dotdot) ++ t :: ts))

/-! ## The file system -/

/-- A node of the file system: a regular file with its content, or a directory
with its entries by name. -/
inductive Node where
  | file (data : Bytes)
  | dir (entries : List (GoString × Node))

/-- The entry of a directory with the given name. -/
def lookupEntry (name : GoString) : List (GoString × Node) → Option Node
  | [] => none
  | (n, c) :: rest => if n = name then some c else lookupEntry name rest

/-- The entries with the node of the entry `name` replaced. -/
def replaceEntry (name : GoString) (node : Node) :
    List (GoString × Node) → List (GoString × Node)
  | [] => []
  | (n, c) :: rest =>
    if n = name then (name, node) :: rest else (n, c) :: replaceEntry name node rest

/-- The entries with a new entry `name` added in name order (directories are
read in name order). -/
def addEntry (name : GoString) (node : Node) :
    List (GoString × Node) → List (GoString × Node)
  | [] => [(name, node)]
  | (n, c) :: rest =>
    if name < n then (name, node) :: (n, c) :: rest else (n, c) :: addEntry name node rest

/-- The entries with the entry `name` set to `node`: replaced where it is, or
added when there is none. -/
def insertEntry (name : GoString) (node : Node) (es : List (GoString × Node)) :
    List (GoString × Node) :=
  match lookupEntry name es with
  | some _ => replaceEntry name node es
  | none => addEntry name node es

/-- The entries without the entry `name`. -/
def removeEntry (name : GoString) (es : List (GoString × Node)) : List (GoString × Node) :=
  es.filter (fun e => e.1 ≠ name)

/-- The entries with the entry `name` removed (`none`) or set to a node. -/
def setEntry (name : GoString) (r : Option Node) (es : List (GoString × Node)) :
    List (GoString × Node) :=
  match r with
  | none => removeEntry name es
  | some c => insertEntry name c es

/-- The node a path (its segments from the root) resolves to (`lstat`). -/
def Node.lookup : Node → List GoString → Option Node
  | n, [] => some n
  | .file _, _ :: _ => none
  | .dir es, name :: rest =>
    match lookupEntry name es with
    | some c => c.lookup rest
    | none => none

/-- Change of the entry a path names in its parent directory. The parent must
exist and be a directory; `f` receives the present entry (`none` when absent)
and answers `none` to fail, `some none` to remove the entry and `some (some n)`
to set it to `n`. The root has no parent: the change fails there. -/
def Node.modify (f : Option Node → Option (Option Node)) : Node → List GoString → Option Node
  | _, [] => none
  | .file _, _ :: _ => none
  | .dir es, [name] =>
    match f (lookupEntry name es) with
    | none => none
    | some r => some (.dir (setEntry name r es))
  | .dir es, name :: seg :: rest =>
    match lookupEntry name es with
    | some c =>
      match c.modify f (seg :: rest) with
      | some c1 => some (.dir (insertEntry name c1 es))
      | none => none
    | none => none

/-- The length of a string in bytes (UTF-8). -/
def byteLen (s : GoString) : Nat := (s.map Char.utf8Size).sum

/-- The longest file name the file system takes, in bytes (`NAME_MAX`, Linux). -/
def nameMax : Nat := 255

/-- The longest path the operating system takes, in bytes (`PATH_MAX`, Linux,
less the terminating NUL). -/
def pathMax : Nat := 4095

/-- Whether the operating system takes a path at all: a path with a NUL byte
is refused (`EINVAL`), and so is a path longer than `PATH_MAX` or with an
element longer than `NAME_MAX` (`ENAMETOOLONG`). -/
def osPathOK (path : GoString) : Bool :=
  decide ((Char.ofNat 0) ∉ path) && decide (byteLen path ≤ pathMax) &&
    (pathSegments path).all (fun seg => decide (byteLen seg ≤ nameMax))

/-- Directories created along an absolute path where they are missing, from
the root down, as `os.MkdirAll` leaves them: `done` are the elements above the
node, the others are still to go. The result is the tree afterwards and
whether the call succeeded. It fails at a component that is a regular file and
at a component whose path the operating system refuses; the directories
created before the failure stay. -/
def Node.mkdirAll : Node → List GoString → List GoString → Node × Bool
  | .file d, _, _ => (.file d, false)
  | .dir es, _, [] => (.dir es, true)
  | .dir es, done, name :: rest =>
    if osPathOK (renderPath true (done ++ [name])) then
      match lookupEntry name es with
      | some c =>
        ((Node.dir (insertEntry name (c.mkdirAll (done ++ [name]) rest).1 es)),
          (c.mkdirAll (done ++ [name]) rest).2)
      | none =>
        ((Node.dir (insertEntry name ((Node.dir []).mkdirAll (done ++ [name]) rest).1 es)),
          ((Node.dir []).mkdirAll (done ++ [name]) rest).2)
    else (.dir es, false)

/-- What writing a file does to the entry of its name: a directory refuses, a
missing or regular file becomes the file with the content `data`. -/
def writeChange (data : Bytes) : Option Node → Option (Option Node)
  | some (.dir _) => none
  | _ => some (some (.file data))

/-- What `mkdir` does to the entry of its name: an empty directory where there
was nothing, a failure where there was something. -/
def mkdirChange : Option Node → Option (Option Node)
  | none => some (some (.dir []))
  | some _ => none

/-- What `os.Remove` does to the entry of its name: a regular file and an
empty directory are removed, a directory with entries and a missing entry
refuse. -/
def removeChange : Option Node → Option (Option Node)
  | some (.file _) => some none
  | some (.dir []) => some none
  | _ => none

/-- Model of `ioutil.ReadFile`: the content of the regular file at `path`. -/
def ReadFile (fs : Node) (path : GoString) : Option Bytes :=
  match fs.lookup (pathSegments path) with
  | some (.file data) => some data
  | _ => none

/-- Model of `ioutil.WriteFile` (and of `os.Create` followed by `io.Copy`): the
file at `path` is created or truncated and given the content `data`; fails on a
directory, when the parent directory is missing, and on a path the operating
system refuses. -/
def WriteFile (fs : Node) (path : GoString) (data : Bytes) : Option Node :=
  if osPathOK path then fs.modify (writeChange data) (pathSegments path) else none

/-- Model of `os.Mkdir`: a new empty directory at `path`; fails when the path
exists already, when the parent directory is missing, and on a path the
operating system refuses. -/
def Mkdir (fs : Node) (path : GoString) : Option Node :=
  if osPathOK path then fs.modify mkdirChange (pathSegments path) else none

/-- Model of `os.MkdirAll` on an absolute path: the tree afterwards and whether
the call succeeded. -/
def MkdirAll (fs : Node) (path : GoString) : Node × Bool :=
  fs.mkdirAll [] (pathSegments path)

/-- Model of `os.Remove`: removes the file or the empty directory at `path`;
fails on a directory with entries and on a missing path. -/
def Remove (fs : Node) (path : GoString) : Option Node :=
  fs.modify removeChange (pathSegments path)

/-- Whether a node is a directory (`FileInfo.IsDir`). -/
def Node.isDir : Node → Bool
  | .dir _ => true
  | .file _ => false

/-- Model of `ioutil.ReadDir`: names and kinds of the entries of the directory
at `path`. -/
def ReadDir (fs : Node) (path : GoString) : Option (List (GoString × Bool)) :=
  match fs.lookup (pathSegments path) with
  | some (.dir es) => some (es.map (fun e => (e.1, e.2.isDir)))
  | _ => none

/-- A single path element that can name an entry: not empty, not `.` or `..`,
without a separator. Which of these names the operating system takes is
`osPathOK`. -/
def validName (n : GoString) : Bool :=
  decide (n ≠ []) && decide (n ≠ dot) && decide (n ≠ dotdot) && decide (Separator ∉ n)

mutual
/-- Well-formed tree: in every directory the names are valid and distinct. -/
def Node.wf : Node → Bool
  | .file _ => true
  | .dir es => wfEntries es
/-- Well-formed entries of a directory. -/
def wfEntries : List (GoString × Node) → Bool
  | [] => true
  | (n, c) :: rest => validName n && rest.all (fun e => decide (e.1 ≠ n)) && c.wf && wfEntries rest
end

mutual
/-- The regular files below a node: path from the node and content. -/
def filesUnder : Node → List (List GoString × Bytes)
  | .file d => [([], d)]
  | .dir es => filesUnderEntries es
/-- The regular files below the entries of a directory. -/
def filesUnderEntries : List (GoString × Node) → List (List GoString × Bytes)
  | [] => []
  | (n, c) :: rest => (filesUnder c).map (fun p => (n :: p.1, p.2)) ++ filesUnderEntries rest
end

/-! ## Requests, responses and configuration -/

/-- One entry of the JSON array `dirHandler` answers a listing with. -/
structure DirItem where
  name : GoString
  type : GoString
  deriving DecidableEq

/-- One entry of the JSON array `searchHandler` answers with. -/
structure Hit where
  path : GoString
  name : GoString
  deriving DecidableEq

/-- The body of a response: text, the bytes of a page, or the JSON array of a
listing or a search. -/
inductive Body where
  | text (s : GoString)
  | raw (b : Bytes)
  | items (l : List DirItem)
  | hits (l : List Hit)
  deriving DecidableEq

/-- What a handler writes: status code and body. -/
structure Response where
  status : Nat
  body : Body
  deriving DecidableEq

/-- A file part of a multipart form: field name, file name as the form reports
it, content. -/
structure FilePart where
  field : GoString
  filename : GoString
  data : Bytes
  deriving DecidableEq

/-- The parts of a request the handlers read. The body is given with the
results of the standard decoders the handlers apply to it. -/
structure Request where
  /-- Value of `r.Method`. -/
  method : GoString
  /-- Value of `r.URL.Query().Get("path")`. -/
  path : GoString
  /-- Value of `r.URL.Query().Get("file")`. -/
  file : GoString
  /-- Value of `r.URL.Query().Get("q")`. -/
  q : GoString
  /-- Value of `r.Header.Get("Authorization")`, empty when the header is missing. -/
  authorization : GoString
  /-- Result of `ioutil.ReadAll(r.Body)`, `none` when reading fails. -/
  body : Option Bytes
  /-- The field `name` after `json.NewDecoder(r.Body).Decode(&req)`: `none` when
  decoding fails, the empty string when the object has no such field. -/
  jsonName : Option GoString
  /-- The file parts of the body read as a multipart form, `none` when it is
  not a well-formed multipart form. -/
  multipart : Option (List FilePart)

/-- The package-level configuration: `storagePath` and `authTokens`
(`map[string]bool`, a missing key reads `false`). -/
structure Config where
  storagePath : GoString
  authTokens : GoString → Bool

/-- Model of `http.Error(w, msg, code)`: the message and a newline, with the
status code. -/
def httpError (msg : String) (code : Nat) : Response :=
  ⟨code, .text (msg.toList ++ ['\n'])⟩

/-! ## Authentication -/

/-- Model of `bufio.Scanner` with `ScanLines`: the lines of the text, each
without its line end (`\n`, or `\r\n`); a last line without line end counts
when it is not empty. -/
def scanLines (text : GoString) : List GoString :=
  let dropCR := fun (l : GoString) =>
    if l.getLast? = some '\r' then l.dropLast else l
  let parts := text.splitOn '\n'
  let parts := if parts.getLast? = some [] then parts.dropLast else parts
  parts.map dropCR

/-- The loop of `loadAuthTokens` over the lines of the token file: every line
is trimmed and, when not empty, set to `true` in the map. -/
def loadAuthTokens (authTokens : GoString → Bool) (lines : List GoString) : GoString → Bool :=
  lines.foldl (fun m line =>
    let token := TrimSpace line
    if token ≠ [] then Function.update m token true else m) authTokens

/-- The token map after start-up for a token file with the given text: the
empty map `make(map[string]bool)` filled by `loadAuthTokens`. -/
def tokensOfFile (text : GoString) : GoString → Bool :=
  loadAuthTokens (fun _ => false) (scanLines text)

/-- The scheme prefix `bearerAuth` requires. -/
def bearerPrefix : GoString := "Bearer ".toList

/-- Model of `bearerAuth` on the value of the `Authorization` header: `none`
when the function returns `true`, and the 401 response it has written when it
returns `false`. -/
def bearerAuth (authTokens : GoString → Bool) (authHeader : GoString) : Option Response :=
  if authHeader = [] ∨ !HasPrefix authHeader bearerPrefix then
    some (httpError "Authorization required" 401)
  else
    let token := TrimSpace (authHeader.drop bearerPrefix.length)
    if !authTokens token then some (httpError "Invalid token" 401)
    else none

/-- Whether `bearerAuth` returns `true`. -/
def authorized (authTokens : GoString → Bool) (authHeader : GoString) : Bool :=
  (bearerAuth authTokens authHeader).isNone

/-! ## Handlers -/

/-- Model of `pageHandler`: response and file system after the request. -/
def pageHandler (cfg : Config) (fs : Node) (r : Request) : Response × Node :=
  let relPath := r.path
  if relPath = [] then (httpError "Missing path parameter" 400, fs)
  else
    let absPath := Join [cfg.storagePath, relPath]
    if !HasPrefix absPath cfg.storagePath then (httpError "Invalid path" 400, fs)
    else if r.method = "GET".toList then
      match ReadFile fs absPath with
      | none => (httpError "Could not read file" 404, fs)
      | some data => (⟨200, .raw data⟩, fs)
    else if r.method = "POST".toList then
      match bearerAuth cfg.authTokens r.authorization with
      | some resp => (resp, fs)
      | none =>
        match r.body with
        | none => (httpError "Failed to read body" 400, fs)
        | some body =>
          let dir := Dir absPath
          match MkdirAll fs dir with
          | (fs1, false) => (httpError "Failed to create directories" 500, fs1)
          | (fs1, true) =>
            match WriteFile fs1 absPath body with
            | none => (httpError "Failed to write file" 500, fs1)
            | some fs2 => (⟨200, .text ("File ".toList ++ relPath ++ " saved".toList)⟩, fs2)
    else if r.method = "DELETE".toList then
      match bearerAuth cfg.authTokens r.authorization with
      | some resp => (resp, fs)
      | none =>
        match Remove fs absPath with
        | none => (httpError "Could not delete file" 500, fs)
        | some fs1 => (⟨200, .text ("File ".toList ++ relPath ++ " deleted".toList)⟩, fs1)
    else (httpError "Unsupported method" 405, fs)

/-- Model of `dirHandler`: response and file system after the request. -/
def dirHandler (cfg : Config) (fs : Node) (r : Request) : Response × Node :=
  let relPath := r.path
  let absDir := Join [cfg.storagePath, relPath]
  if !HasPrefix absDir cfg.storagePath then (httpError "Invalid directory path" 400, fs)
  else if r.method = "GET".toList then
    match ReadDir fs absDir with
    | none => (httpError "Directory not found" 404, fs)
    | some entries =>
      (⟨200, .items (entries.map (fun e =>
        ⟨e.1, if e.2 then "dir".toList else "file".toList⟩))⟩, fs)
  else if r.method = "POST".toList then
    match bearerAuth cfg.authTokens r.authorization with
    | some resp => (resp, fs)
    | none =>
      match r.jsonName with
      | none => (httpError "Invalid JSON or missing name" 400, fs)
      | some name =>
        if name = [] then (httpError "Invalid JSON or missing name" 400, fs)
        else
          let newDir := Join [absDir, name]
          match Mkdir fs newDir with
          | none => (httpError "Failed to create directory" 500, fs)
          | some fs1 => (⟨200, .text ("Directory ".toList ++ name ++ " created".toList)⟩, fs1)
  else if r.method = "DELETE".toList then
    match bearerAuth cfg.authTokens r.authorization with
    | some resp => (resp, fs)
    | none =>
      match Remove fs absDir with
      | none => (httpError "Directory not empty or could not be removed" 400, fs)
      | some fs1 => (⟨200, .text ("Directory ".toList ++ relPath ++ " deleted".toList)⟩, fs1)
  else (httpError "Unsupported method" 405, fs)

/-- How `ParseMultipartForm` keeps a file part: in memory, or in a temporary
file on disk. -/
inductive Stored where
  | memory
  | tempFile
  deriving DecidableEq

/-- Model of `r.ParseMultipartForm(maxMemory)`: the whole body is parsed; file
parts are kept in memory while their total stays within `maxMemory` and a part
that does not fit goes to a temporary file on disk. The size of a part is no
cause of failure; only a body that is not a multipart form is. -/
def ParseMultipartForm (maxMemory : Nat) (r : Request) : Option (List (FilePart × Stored)) :=
  match r.multipart with
  | none => none
  | some parts =>
    some (parts.foldl (fun (acc : List (FilePart × Stored) × Nat) part =>
      if part.data.length ≤ acc.2 then
        (acc.1 ++ [(part, Stored.memory)], acc.2 - part.data.length)
      else (acc.1 ++ [(part, Stored.tempFile)], acc.2)) ([], maxMemory)).1

/-- Model of `r.FormFile(key)` after `ParseMultipartForm`: the first file part
of the field, opened from where it is kept. -/
def FormFile (form : List (FilePart × Stored)) (key : GoString) : Option FilePart :=
  (form.find? (fun p => p.1.field = key)).map (fun p => p.1)

/-- The upload limit `10 << 20` handed to `ParseMultipartForm`. -/
def uploadLimit : Nat := 10 <<< 20

/-- Model of `uploadHandler`: response and file system after the request. -/
def uploadHandler (cfg : Config) (fs : Node) (r : Request) : Response × Node :=
  let relPath := r.path
  let absDir := Join [cfg.storagePath, relPath]
  if !HasPrefix absDir cfg.storagePath then (httpError "Invalid directory path" 400, fs)
  else
    match bearerAuth cfg.authTokens r.authorization with
    | some resp => (resp, fs)
    | none =>
      if r.method = "POST".toList then
        match ParseMultipartForm uploadLimit r with
        | none => (httpError "Failed to parse multipart form" 400, fs)
        | some form =>
          match FormFile form "file".toList with
          | none => (httpError "Failed to get file from form" 400, fs)
          | some part =>
            let targetPath := Join [absDir, part.filename]
            match WriteFile fs targetPath [] with
            | none => (httpError "Unable to create file" 500, fs)
            | some fs1 =>
              match WriteFile fs1 targetPath part.data with
              | none => (httpError "Failed to save file" 500, fs1)
              | some fs2 =>
                (⟨200, .text ("File ".toList ++ part.filename ++ " uploaded".toList)⟩, fs2)
      else if r.method = "DELETE".toList then
        let filename := r.file
        if filename = [] then (httpError "Missing file parameter" 400, fs)
        else
          let targetPath := Join [absDir, filename]
          match Remove fs targetPath with
          | none => (httpError "Failed to delete file" 500, fs)
          | some fs1 => (⟨200, .text ("File ".toList ++ filename ++ " deleted".toList)⟩, fs1)
      else (httpError "Unsupported method" 405, fs)

/-- The markdown extension. -/
def mdExt : GoString := ".md".toList

/-- The callback `searchHandler` hands to `filepath.Walk`, for one visited
path with the name and kind `info` reports: the hits it appends to `results`. -/
def searchVisit (lower : Char → Char) (cfg : Config) (fs : Node) (query : GoString)
    (path name : GoString) (isDir : Bool) : List Hit :=
  if !isDir && (Ext name = mdExt || Contains (ToLower lower name) (ToLower lower query)) then
    let contentMatch :=
      if Ext name = mdExt then
        match ReadFile fs path with
        | some data => Contains (ToLower lower (decodeUTF8 data)) (ToLower lower query)
        | none => false
      else false
    let isMatch := contentMatch || Contains (ToLower lower name) (ToLower lower query)
    if isMatch then
      match Rel cfg.storagePath path with
      | some rel => [⟨rel, name⟩]
      | none => []
    else []
  else []

mutual
/-- The recursion of `filepath.Walk` with a callback that never returns an
error: the node is visited, then the entries of a directory in name order. -/
def walk (fn : GoString → GoString → Bool → List Hit) (path name : GoString) : Node → List Hit
  | .file _ => fn path name false
  | .dir es => fn path name true ++ walkEntries fn path es
/-- The loop of `walk` over the entries of the directory `path`. -/
def walkEntries (fn : GoString → GoString → Bool → List Hit) (path : GoString) :
    List (GoString × Node) → List Hit
  | [] => []
  | (name, child) :: rest => walk fn (Join [path, name]) name child ++ walkEntries fn path rest
end

/-- Model of `filepath.Walk(root, fn)` for the callback of `searchHandler`: a
root that cannot be read is skipped by the callback. -/
def Walk (fs : Node) (root : GoString) (fn : GoString → GoString → Bool → List Hit) : List Hit :=
  match fs.lookup (pathSegments root) with
  | none => []
  | some n => walk fn root (Base root) n

/-- Model of `searchHandler`: response and file system after the request. -/
def searchHandler (lower : Char → Char) (cfg : Config) (fs : Node) (r : Request) :
    Response × Node :=
  let query := r.q
  if query = [] then (httpError "Missing query" 400, fs)
  else (⟨200, .hits (Walk fs cfg.storagePath (searchVisit lower cfg fs query))⟩, fs)

/-- The hits of the search for one regular file below the root, given by its
path from the root and its content: one when the file matches the query, none
otherwise. -/
def hitOf (lower : Char → Char) (query : GoString) (p : List GoString × Bytes) : List Hit :=
  if Contains (ToLower lower (p.1.getLast?.getD [])) (ToLower lower query) = true ∨
      (Ext (p.1.getLast?.getD []) = mdExt ∧
        Contains (ToLower lower (decodeUTF8 p.2)) (ToLower lower query) = true)
  then [⟨joinSep p.1, p.1.getLast?.getD []⟩] else []

/-- The API routes registered in `main`. -/
inductive Route where
  | page
  | dir
  | upload
  | search
  deriving DecidableEq

/-- The handler of a route. -/
def serve (lower : Char → Char) (cfg : Config) (route : Route) (fs : Node) (r : Request) :
    Response × Node :=
  match route with
  | .page => pageHandler cfg fs r
  | .dir => dirHandler cfg fs r
  | .upload => uploadHandler cfg fs r
  | .search => searchHandler lower cfg fs r

end Docs

namespace Docs

/-! ## Concrete inputs -/

/-- The storage root `/data`. -/
def rootData : GoString := "/data".toList

/-- Configuration with storage root `/data` and the token file `secret`. -/
def cfgData : Config := ⟨rootData, tokensOfFile "secret\n".toList⟩

/-- A file system with the storage root `/data` holding `notes/a.md`, and
beside the root the file `/victim.txt`. -/
def fsData : Node :=
  .dir [("data".toList, .dir [("notes".toList, .dir [("a.md".toList, .file (bytesOf "hello"))])]),
        ("victim.txt".toList, .file (bytesOf "keep"))]

/-- A request with the given method and `path` parameter, authorised by the
token `secret`, with nothing else set. -/
def authedRequest (method path : String) : Request :=
  { method := method.toList, path := path.toList, file := [], q := [],
    authorization := "Bearer secret".toList, body := none, jsonName := none,
    multipart := none }

/-- The request `POST dir?path=` with body `{"name":"../evil"}`. -/
def mkdirEvil : Request :=
  { authedRequest "POST" "" with
    body := some (bytesOf "\x7b\"name\":\"../evil\"\x7d"), jsonName := some "../evil".toList }

/-- The request `DELETE upload?path=&file=../victim.txt`. -/
def deleteVictim : Request :=
  { authedRequest "DELETE" "" with file := "../victim.txt".toList }

/-- A file system whose storage root `/data` is empty. -/
def fsRoot : Node := .dir [("data".toList, .dir [])]

/-- A file system whose storage root `/data` holds the empty directory
`empty`. -/
def fsEmptyDir : Node := .dir [("data".toList, .dir [("empty".toList, .dir [])])]

/-- The request `GET page?path=p`. -/
def getPage (path : GoString) : Request :=
  { method := "GET".toList, path := path, file := [], q := [], authorization := [],
    body := none, jsonName := none, multipart := none }

/-- The authorised request `POST page?path=p` with the given body. -/
def postPage (path body : String) : Request :=
  { authedRequest "POST" path with body := some (bytesOf body) }

/-- The authorised request `POST dir?path=p` with the body `{"name":n}`. -/
def mkdirRequest (path name : String) : Request :=
  { authedRequest "POST" path with
    body := some (bytesOf "\x7b\"name\":\"" ++ bytesOf name ++ bytesOf "\"\x7d"),
    jsonName := some name.toList }

/-- A file content one byte over the upload limit. -/
def bigData : Bytes := List.replicate (uploadLimit + 1) 120

/-- An authorised `POST upload?path=` with the single file part `file`, named
`big.bin`, of the given content. -/
def uploadOf (data : Bytes) : Request :=
  { authedRequest "POST" "" with
    multipart := some [⟨"file".toList, "big.bin".toList, data⟩] }

/-- A file name of 256 bytes, one over `NAME_MAX`. -/
def longName : GoString := List.replicate 256 'a'

/-- A path with a NUL byte: `a`, NUL, `b`. -/
def nulPath : GoString := ['a', Char.ofNat 0, 'b']

/-- The authorised request `POST page?path=p` for a path given by its
characters, with the given body. -/
def postTo (path : GoString) (body : String) : Request :=
  { authedRequest "POST" "" with path := path, body := some (bytesOf body) }

/-- The authorised request `POST dir?path=p` whose JSON name is given by its
characters. -/
def mkdirNamed (path : String) (name : GoString) : Request :=
  { authedRequest "POST" path with jsonName := some name }

/-- Scenario D: the request `GET search?q=hello`. -/
def searchHello : Request :=
  { method := "GET".toList, path := [], file := [], q := "hello".toList, authorization := [],
    body := none, jsonName := none, multipart := none }

/-- Scenario E: `POST upload?path=notes` with the file `img.png` and no
`Authorization` header. -/
def uploadNoAuth : Request :=
  { method := "POST".toList, path := "notes".toList, file := [], q := [],
    authorization := [], body := none, jsonName := none,
    multipart := some [⟨"file".toList, "img.png".toList, bytesOf "PNG"⟩] }

end Docs

namespace Docs

/-! ## Authentication -/

theorem loadAuthTokens_true_iff (lines : List GoString) (m : GoString → Bool) (tok : GoString) :
    loadAuthTokens m lines tok = true ↔
      m tok = true ∨ (tok ≠ [] ∧ ∃ line ∈ lines, TrimSpace line = tok) := by
  induction lines generalizing m with
  | nil => simp [loadAuthTokens]
  | cons l ls ih =>
    have hstep : loadAuthTokens m (l :: ls) =
        loadAuthTokens (if TrimSpace l ≠ [] then Function.update m (TrimSpace l) true else m) ls := by
      simp [loadAuthTokens]
    rw [hstep, ih]
    by_cases hl : TrimSpace l = []
    · simp only [hl, ne_eq, not_true_eq_false, if_false, List.mem_cons, exists_eq_or_imp]
      constructor
      · rintro (h | ⟨h1, h2⟩)
        · exact Or.inl h
        · exact Or.inr ⟨h1, Or.inr h2⟩
      · rintro (h | ⟨h1, h2 | h2⟩)
        · exact Or.inl h
        · exact absurd h2.symm h1
        · exact Or.inr ⟨h1, h2⟩
    · simp only [ne_eq, hl, not_false_eq_true, if_true, List.mem_cons, exists_eq_or_imp]
      by_cases ht : tok = TrimSpace l
      · subst ht
        simp [hl]
      · rw [Function.update_noteq ht]
        constructor
        · rintro (h | ⟨h1, h2⟩)
          · exact Or.inl h
          · exact Or.inr ⟨h1, Or.inr h2⟩
        · rintro (h | ⟨h1, h2 | h2⟩)
          · exact Or.inl h
          · exact absurd h2.symm ht
          · exact Or.inr ⟨h1, h2⟩

theorem tokensOfFile_true_iff (text tok : GoString) :
    tokensOfFile text tok = true ↔ tok ≠ [] ∧ ∃ line ∈ scanLines text, TrimSpace line = tok := by
  simp [tokensOfFile, loadAuthTokens_true_iff]

theorem authorized_iff (toks : GoString → Bool) (h : GoString) :
    authorized toks h = true ↔
      HasPrefix h bearerPrefix = true ∧ toks (TrimSpace (h.drop bearerPrefix.length)) = true := by
  unfold authorized bearerAuth
  by_cases hp : HasPrefix h bearerPrefix = true
  · have hne : h ≠ [] := by
      rintro rfl
      revert hp; decide
    by_cases ht : toks (TrimSpace (List.drop bearerPrefix.length h)) = true
    · simp [hp, hne, ht]
    · simp [hp, hne, ht]
  · simp [hp]

theorem bearerAuth_status (toks : GoString → Bool) (h : GoString) (resp : Response)
    (hr : bearerAuth toks h = some resp) : resp.status = 401 := by
  unfold bearerAuth at hr
  split at hr
  · cases hr; rfl
  · simp only at hr
    split at hr
    · cases hr; rfl
    · cases hr

theorem bearerAuth_of_not_authorized (toks : GoString → Bool) (h : GoString)
    (hu : authorized toks h = false) :
    ∃ resp, bearerAuth toks h = some resp ∧ resp.status = 401 := by
  unfold authorized at hu
  cases hb : bearerAuth toks h with
  | none => rw [hb] at hu; cases hu
  | some resp => exact ⟨resp, rfl, bearerAuth_status toks h resp hb⟩

theorem trimSpace_all_space (ws : GoString) (h : ∀ c ∈ ws, isSpace c = true) :
    TrimSpace ws = [] := by
  have : ws.dropWhile isSpace = [] := by
    rw [List.dropWhile_eq_nil_iff]; exact h
  simp [TrimSpace, this]

/-- C3: for the token map `loadAuthTokens` builds from any token file,
`bearerAuth` accepts a header value exactly when it starts with `Bearer ` and
the rest, trimmed, is a non-empty member of the map; the members are the
non-empty trimmed lines of the file; every rejection is a 401; and a missing
header, a header without the exact prefix (such as `bearer x` and `Basic x`),
an empty token and a token of white space only are rejected. -/
theorem bearerAuth_accepts_iff (text authHeader : GoString) :
    (authorized (tokensOfFile text) authHeader = true ↔
      HasPrefix authHeader bearerPrefix = true ∧
      TrimSpace (authHeader.drop bearerPrefix.length) ≠ [] ∧
      tokensOfFile text (TrimSpace (authHeader.drop bearerPrefix.length)) = true) ∧
    (∀ tok, tokensOfFile text tok = true ↔
      tok ≠ [] ∧ ∃ line ∈ scanLines text, TrimSpace line = tok) ∧
    (∀ resp, bearerAuth (tokensOfFile text) authHeader = some resp → resp.status = 401) ∧
    authorized (tokensOfFile text) [] = false ∧
    (HasPrefix authHeader bearerPrefix = false →
      authorized (tokensOfFile text) authHeader = false) ∧
    authorized (tokensOfFile text) "bearer x".toList = false ∧
    authorized (tokensOfFile text) "Basic x".toList = false ∧
    authorized (tokensOfFile text) "Bearer ".toList = false ∧
    (∀ ws : GoString, (∀ c ∈ ws, isSpace c = true) →
      authorized (tokensOfFile text) (bearerPrefix ++ ws) = false) := by
  have hempty : tokensOfFile text [] = false := by
    cases h : tokensOfFile text [] with
    | false => rfl
    | true => exact absurd rfl ((tokensOfFile_true_iff text []).1 h).1
  have hnot : ∀ h : GoString, ¬ (HasPrefix h bearerPrefix = true ∧
      tokensOfFile text (TrimSpace (h.drop bearerPrefix.length)) = true) →
      authorized (tokensOfFile text) h = false := by
    intro h hn
    cases ha : authorized (tokensOfFile text) h with
    | false => rfl
    | true => exact absurd ((authorized_iff _ _).1 ha) hn
  refine ⟨?_, tokensOfFile_true_iff text, bearerAuth_status _ _, ?_, ?_, ?_, ?_, ?_, ?_⟩
  · rw [authorized_iff]
    constructor
    · rintro ⟨h1, h2⟩
      exact ⟨h1, ((tokensOfFile_true_iff text _).1 h2).1, h2⟩
    · rintro ⟨h1, _, h2⟩
      exact ⟨h1, h2⟩
  · exact hnot _ (fun h => absurd h.1 (by decide))
  · intro hp
    exact hnot _ (fun h => by rw [hp] at h; exact absurd h.1 (by decide))
  · exact hnot _ (fun h => absurd h.1 (by decide))
  · exact hnot _ (fun h => absurd h.1 (by decide))
  · refine hnot _ (fun h => ?_)
    have ht : TrimSpace (List.drop bearerPrefix.length "Bearer ".toList) = [] := by decide
    rw [ht, hempty] at h
    exact absurd h.2 (by decide)
  · intro ws hws
    refine hnot _ (fun h => ?_)
    rw [List.drop_left, trimSpace_all_space ws hws, hempty] at h
    exact absurd h.2 (by decide)

/-! ## Requests without authorisation -/

theorem pageHandler_unauthorized (cfg : Config) (fs : Node) (r : Request)
    (hu : authorized cfg.authTokens r.authorization = false) :
    (pageHandler cfg fs r).2 = fs ∧
    ((r.method = "POST".toList ∨ r.method = "DELETE".toList) → r.path ≠ [] →
      containmentCheck cfg.storagePath r.path = true → (pageHandler cfg fs r).1.status = 401) := by
  obtain ⟨resp, hb, hs⟩ := bearerAuth_of_not_authorized _ _ hu
  constructor
  · unfold pageHandler
    simp only [hb]
    split_ifs <;> try rfl
    split <;> rfl
  · intro hm hp hc
    unfold containmentCheck at hc
    unfold pageHandler
    simp only [hb, hp, hc, if_false, Bool.not_true]
    rcases hm with hm | hm <;> simp [hm, hs]

theorem dirHandler_unauthorized (cfg : Config) (fs : Node) (r : Request)
    (hu : authorized cfg.authTokens r.authorization = false) :
    (dirHandler cfg fs r).2 = fs ∧
    ((r.method = "POST".toList ∨ r.method = "DELETE".toList) →
      containmentCheck cfg.storagePath r.path = true → (dirHandler cfg fs r).1.status = 401) := by
  obtain ⟨resp, hb, hs⟩ := bearerAuth_of_not_authorized _ _ hu
  constructor
  · unfold dirHandler
    simp only [hb]
    split_ifs <;> try rfl
    split <;> rfl
  · intro hm hc
    unfold containmentCheck at hc
    unfold dirHandler
    simp only [hb, hc, if_false, Bool.not_true]
    rcases hm with hm | hm <;> simp [hm, hs]

theorem uploadHandler_unauthorized (cfg : Config) (fs : Node) (r : Request)
    (hu : authorized cfg.authTokens r.authorization = false) :
    (uploadHandler cfg fs r).2 = fs ∧
    (containmentCheck cfg.storagePath r.path = true → (uploadHandler cfg fs r).1.status = 401) := by
  obtain ⟨resp, hb, hs⟩ := bearerAuth_of_not_authorized _ _ hu
  constructor
  · unfold uploadHandler
    simp only [hb]
    split_ifs <;> rfl
  · intro hc
    unfold containmentCheck at hc
    unfold uploadHandler
    simp [hb, hc, hs]

theorem searchHandler_fs (lower : Char → Char) (cfg : Config) (fs : Node) (r : Request) :
    (searchHandler lower cfg fs r).2 = fs := by
  unfold searchHandler
  simp only []
  split_ifs <;> rfl

/-- C4: a request whose `Authorization` header `bearerAuth` does not accept
leaves the file system as it was, on every route and with every method, path,
body, name and file parameter; and a `POST` or `DELETE` on the page, dir or
upload route whose path passes the containment check (and is not empty on the
page route) is answered 401. -/
theorem unauthorized_request_changes_nothing (lower : Char → Char) (cfg : Config)
    (route : Route) (fs : Node) (r : Request)
    (hu : authorized cfg.authTokens r.authorization = false) :
    (serve lower cfg route fs r).2 = fs ∧
    ((r.method = "POST".toList ∨ r.method = "DELETE".toList) → route ≠ Route.search →
      (route = Route.page → r.path ≠ []) → containmentCheck cfg.storagePath r.path = true →
      (serve lower cfg route fs r).1.status = 401) := by
  cases route with
  | page =>
    exact ⟨(pageHandler_unauthorized cfg fs r hu).1, fun hm _ hp hc =>
      (pageHandler_unauthorized cfg fs r hu).2 hm (hp rfl) hc⟩
  | dir =>
    exact ⟨(dirHandler_unauthorized cfg fs r hu).1, fun hm _ _ hc =>
      (dirHandler_unauthorized cfg fs r hu).2 hm hc⟩
  | upload =>
    exact ⟨(uploadHandler_unauthorized cfg fs r hu).1, fun _ _ _ hc =>
      (uploadHandler_unauthorized cfg fs r hu).2 hc⟩
  | search => exact ⟨searchHandler_fs lower cfg fs r, fun _ hne => absurd rfl hne⟩

/-- Scenario E as an instance of C4: the upload of `img.png` into `notes`
without an `Authorization` header is answered 401 and writes nothing. -/
theorem unauthorized_request_changes_nothing_witness :
    authorized cfgData.authTokens uploadNoAuth.authorization = false ∧
    (serve Char.toLower cfgData Route.upload fsData uploadNoAuth).2 = fsData ∧
    (serve Char.toLower cfgData Route.upload fsData uploadNoAuth).1.status = 401 :=
  ⟨by decide,
   (unauthorized_request_changes_nothing Char.toLower cfgData Route.upload fsData uploadNoAuth
      (by decide)).1,
   (unauthorized_request_changes_nothing Char.toLower cfgData Route.upload fsData uploadNoAuth
      (by decide)).2 (Or.inl (by decide)) (by decide) (fun h => by cases h) (by decide)⟩

/-! ## Path containment at concrete inputs -/

/-- C1 (defect of the code): with the storage root `/data` the client path
`../data2/x` joins to `/data2/x`, the containment check of the handlers accepts
it, and `/data2/x` is neither `/data` nor a descendant of it by path segments;
the authorised `POST page?path=../data2/x` is answered 200 and writes the file
`/data2/x` beside the root. -/
theorem containmentCheck_accepts_sibling :
    Join [rootData, "../data2/x".toList] = "/data2/x".toList ∧
    containmentCheck rootData "../data2/x".toList = true ∧
    ¬ isWithin rootData (Join [rootData, "../data2/x".toList]) ∧
    ReadFile fsData "/data2/x".toList = none ∧
    (pageHandler cfgData fsData (postPage "../data2/x" "hello")).1.status = 200 ∧
    ReadFile (pageHandler cfgData fsData (postPage "../data2/x" "hello")).2
      "/data2/x".toList = some (bytesOf "hello") := by
  decide

/-- C2 (defect of the code): with the storage root `/data` and the empty
`path`, which passes the containment check, an authorised `POST dir` with the
name `../evil` creates the directory `/evil`, and an authorised `DELETE upload`
with `file=../victim.txt` removes `/victim.txt`; both targets are outside the
root. -/
theorem mutation_targets_escape_root :
    containmentCheck cfgData.storagePath mkdirEvil.path = true ∧
    Join [Join [cfgData.storagePath, mkdirEvil.path], "../evil".toList] = "/evil".toList ∧
    ¬ isWithin cfgData.storagePath "/evil".toList ∧
    ReadDir fsData "/evil".toList = none ∧
    (dirHandler cfgData fsData mkdirEvil).1.status = 200 ∧
    ReadDir (dirHandler cfgData fsData mkdirEvil).2 "/evil".toList = some [] ∧
    containmentCheck cfgData.storagePath deleteVictim.path = true ∧
    Join [Join [cfgData.storagePath, deleteVictim.path], deleteVictim.file] =
      "/victim.txt".toList ∧
    ¬ isWithin cfgData.storagePath "/victim.txt".toList ∧
    ReadFile fsData "/victim.txt".toList = some (bytesOf "keep") ∧
    (uploadHandler cfgData fsData deleteVictim).1.status = 200 ∧
    ReadFile (uploadHandler cfgData fsData deleteVictim).2 "/victim.txt".toList = none := by
  decide

end Docs

namespace Docs


/-! ## Path algebra -/

theorem validName_iff (s : GoString) :
    validName s = true ↔ s ≠ [] ∧ s ≠ dot ∧ s ≠ dotdot ∧ Separator ∉ s := by
  simp [validName, and_assoc]

theorem splitPath_ne_nil (p : GoString) : splitPath p ≠ [] := by
  cases p with
  | nil => simp [splitPath]
  | cons c cs =>
    unfold splitPath
    split_ifs
    · simp
    · split <;> simp

theorem splitPath_cons_sep (cs : GoString) : splitPath (Separator :: cs) = [] :: splitPath cs := by
  simp [splitPath]

theorem splitPath_cons_of_ne (c : Char) (cs seg : GoString) (rest : List GoString)
    (hc : c ≠ Separator) (h : splitPath cs = seg :: rest) :
    splitPath (c :: cs) = (c :: seg) :: rest := by
  simp [splitPath, hc, h]

theorem splitPath_append_sep (a b : GoString) :
    splitPath (a ++ Separator :: b) = splitPath a ++ splitPath b := by
  induction a with
  | nil => simp [splitPath]
  | cons c cs ih =>
    by_cases hc : c = Separator
    · subst hc
      simp [splitPath_cons_sep, ih]
    · obtain ⟨seg, rest, hs⟩ := List.exists_cons_of_ne_nil (splitPath_ne_nil cs)
      rw [List.cons_append, splitPath_cons_of_ne c _ seg (rest ++ splitPath b) hc (by rw [ih, hs]; rfl),
        splitPath_cons_of_ne c cs seg rest hc hs]
      rfl

theorem splitPath_of_not_mem (a : GoString) (h : Separator ∉ a) : splitPath a = [a] := by
  induction a with
  | nil => rfl
  | cons c cs ih =>
    have hc : c ≠ Separator := fun e => h (by simp [e])
    have hcs : Separator ∉ cs := fun e => h (List.mem_cons_of_mem _ e)
    exact splitPath_cons_of_ne c cs cs [] hc (ih hcs)

theorem not_sep_mem_of_mem_splitPath (p s : GoString) (h : s ∈ splitPath p) : Separator ∉ s := by
  induction p generalizing s with
  | nil =>
    simp [splitPath] at h
    subst h; simp
  | cons c cs ih =>
    by_cases hc : c = Separator
    · subst hc
      rw [splitPath_cons_sep] at h
      rcases List.mem_cons.1 h with h | h
      · subst h; simp
      · exact ih s h
    · obtain ⟨seg, rest, hs⟩ := List.exists_cons_of_ne_nil (splitPath_ne_nil cs)
      rw [splitPath_cons_of_ne c cs seg rest hc hs] at h
      rcases List.mem_cons.1 h with h | h
      · subst h
        have := ih seg (by rw [hs]; exact List.mem_cons_self _ _)
        intro hm
        rcases List.mem_cons.1 hm with e | e
        · exact hc e.symm
        · exact this e
      · exact ih s (by rw [hs]; exact List.mem_cons_of_mem _ h)

theorem joinSep_cons_cons (e e2 : GoString) (es : List GoString) :
    joinSep (e :: e2 :: es) = e ++ Separator :: joinSep (e2 :: es) := rfl

theorem splitPath_joinSep (segs : List GoString) (hne : segs ≠ [])
    (h : ∀ s ∈ segs, Separator ∉ s) : splitPath (joinSep segs) = segs := by
  induction segs with
  | nil => exact absurd rfl hne
  | cons e es ih =>
    cases es with
    | nil => exact splitPath_of_not_mem e (h e (List.mem_cons_self _ _))
    | cons e2 es2 =>
      rw [joinSep_cons_cons, splitPath_append_sep,
        splitPath_of_not_mem e (h e (List.mem_cons_self _ _)),
        ih (by simp) (fun s hs => h s (List.mem_cons_of_mem _ hs))]
      rfl

theorem joinSep_append_singleton (P : List GoString) (hne : P ≠ []) (s : GoString) :
    joinSep (P ++ [s]) = joinSep P ++ Separator :: s := by
  induction P with
  | nil => exact absurd rfl hne
  | cons e es ih =>
    cases es with
    | nil => rfl
    | cons e2 es2 =>
      rw [List.cons_append, List.cons_append, joinSep_cons_cons, ← List.cons_append, ih (by simp),
        joinSep_cons_cons]
      simp

theorem joinSep_prefix (P X : List GoString) : joinSep P <+: joinSep (P ++ X) := by
  induction P with
  | nil => exact List.nil_prefix
  | cons e es ih =>
    cases es with
    | nil =>
      cases X with
      | nil => exact List.prefix_refl _
      | cons x xs =>
        show e <+: joinSep (e :: x :: xs)
        rw [joinSep_cons_cons]
        exact List.prefix_append _ _
    | cons e2 es2 =>
      rw [List.cons_append, List.cons_append, joinSep_cons_cons, joinSep_cons_cons]
      rw [List.prefix_append_right_inj, List.prefix_cons_inj]
      exact ih

theorem pathSegments_renderPath (P : List GoString) (h : ∀ s ∈ P, validName s = true) :
    pathSegments (renderPath true P) = P := by
  have hsep : ∀ s ∈ P, Separator ∉ s := fun s hs => ((validName_iff s).1 (h s hs)).2.2.2
  have hne : ∀ s ∈ P, s ≠ [] := fun s hs => ((validName_iff s).1 (h s hs)).1
  unfold pathSegments renderPath
  simp only [if_true]
  rw [splitPath_cons_sep]
  by_cases hP : P = []
  · subst hP; decide
  · rw [splitPath_joinSep P hP hsep]
    simp only [List.filter_cons, ne_eq, not_true_eq_false, decide_False, Bool.false_eq_true, if_false]
    rw [List.filter_eq_self]
    intro s hs
    simpa using hne s hs



theorem cleanStep_nil (rooted : Bool) (out : List GoString) : cleanStep rooted out [] = out := by
  simp [cleanStep]

theorem cleanStep_valid (rooted : Bool) (out : List GoString) (seg : GoString)
    (h : validName seg = true) : cleanStep rooted out seg = seg :: out := by
  obtain ⟨h1, h2, h3, _⟩ := (validName_iff seg).1 h
  simp [cleanStep, h1, h2, h3]

theorem foldl_cleanStep_valid (rooted : Bool) (P S : List GoString)
    (h : ∀ s ∈ P, validName s = true) :
    P.foldl (cleanStep rooted) S = P.reverse ++ S := by
  induction P generalizing S with
  | nil => rfl
  | cons e es ih =>
    rw [List.foldl_cons, cleanStep_valid rooted S e (h e (List.mem_cons_self _ _)),
      ih _ (fun s hs => h s (List.mem_cons_of_mem _ hs))]
    simp

theorem cleanStep_skip (rooted : Bool) (out : List GoString) (seg : GoString)
    (h : seg = [] ∨ seg = dot) : cleanStep rooted out seg = out := by
  simp [cleanStep, h]

theorem cleanStep_push (rooted : Bool) (out : List GoString) (seg : GoString)
    (h1 : ¬ (seg = [] ∨ seg = dot)) (h2 : seg ≠ dotdot) : cleanStep rooted out seg = seg :: out := by
  simp [cleanStep, h1, h2]

theorem cleanStep_dotdot_nil (rooted : Bool) :
    cleanStep rooted [] dotdot = if rooted then [] else [dotdot] := by
  cases rooted <;> rfl

theorem cleanStep_dotdot_cons (rooted : Bool) (top : GoString) (rest : List GoString) :
    cleanStep rooted (top :: rest) dotdot =
      if top = dotdot then (if rooted then top :: rest else dotdot :: top :: rest) else rest := by
  have h : ¬ (dotdot = [] ∨ dotdot = dot) := by decide
  simp [cleanStep, h]

/-- The stack of a rooted path holds valid names only. -/
theorem cleanStep_rooted_valid (out : List GoString) (seg : GoString)
    (hseg : Separator ∉ seg) (hout : ∀ s ∈ out, validName s = true) :
    ∀ s ∈ cleanStep true out seg, validName s = true := by
  by_cases h1 : seg = [] ∨ seg = dot
  · rw [cleanStep_skip _ _ _ h1]; exact hout
  · by_cases h2 : seg = dotdot
    · subst h2
      cases out with
      | nil => rw [cleanStep_dotdot_nil]; simp
      | cons top rest =>
        rw [cleanStep_dotdot_cons]
        by_cases ht : top = dotdot
        · rw [if_pos ht, if_pos rfl]; exact hout
        · rw [if_neg ht]; exact fun s hs => hout s (List.mem_cons_of_mem _ hs)
    · rw [cleanStep_push _ _ _ h1 h2]
      intro s hs
      rcases List.mem_cons.1 hs with e | e
      · subst e
        rw [validName_iff]
        exact ⟨fun e => h1 (Or.inl e), fun e => h1 (Or.inr e), h2, hseg⟩
      · exact hout s e

theorem foldl_cleanStep_rooted_valid (segs out : List GoString)
    (hsegs : ∀ s ∈ segs, Separator ∉ s) (hout : ∀ s ∈ out, validName s = true) :
    ∀ s ∈ segs.foldl (cleanStep true) out, validName s = true := by
  induction segs generalizing out with
  | nil => exact hout
  | cons e es ih =>
    rw [List.foldl_cons]
    exact ih _ (fun s hs => hsegs s (List.mem_cons_of_mem _ hs))
      (cleanStep_rooted_valid out e (hsegs e (List.mem_cons_self _ _)) hout)

/-- The stack of a path that is not rooted holds non-empty elements without
separator. -/
theorem cleanStep_unrooted_ok (out : List GoString) (seg : GoString)
    (hseg : Separator ∉ seg) (hout : ∀ s ∈ out, s ≠ [] ∧ s ≠ dot ∧ Separator ∉ s) :
    ∀ s ∈ cleanStep false out seg, s ≠ [] ∧ s ≠ dot ∧ Separator ∉ s := by
  have hdd : dotdot ≠ [] ∧ dotdot ≠ dot ∧ Separator ∉ dotdot := by decide
  by_cases h1 : seg = [] ∨ seg = dot
  · rw [cleanStep_skip _ _ _ h1]; exact hout
  · by_cases h2 : seg = dotdot
    · subst h2
      cases out with
      | nil =>
        rw [cleanStep_dotdot_nil]
        intro s hs
        simp only [Bool.false_eq_true, if_false, List.mem_singleton] at hs
        subst hs; exact hdd
      | cons top rest =>
        rw [cleanStep_dotdot_cons]
        by_cases ht : top = dotdot
        · rw [if_pos ht, if_neg (by decide)]
          intro s hs
          rcases List.mem_cons.1 hs with e | e
          · subst e; exact hdd
          · exact hout s e
        · rw [if_neg ht]; exact fun s hs => hout s (List.mem_cons_of_mem _ hs)
    · rw [cleanStep_push _ _ _ h1 h2]
      intro s hs
      rcases List.mem_cons.1 hs with e | e
      · subst e
        exact ⟨fun e => h1 (Or.inl e), fun e => h1 (Or.inr e), hseg⟩
      · exact hout s e

theorem foldl_cleanStep_unrooted_ok (segs out : List GoString)
    (hsegs : ∀ s ∈ segs, Separator ∉ s) (hout : ∀ s ∈ out, s ≠ [] ∧ s ≠ dot ∧ Separator ∉ s) :
    ∀ s ∈ segs.foldl (cleanStep false) out, s ≠ [] ∧ s ≠ dot ∧ Separator ∉ s := by
  induction segs generalizing out with
  | nil => exact hout
  | cons e es ih =>
    rw [List.foldl_cons]
    exact ih _ (fun s hs => hsegs s (List.mem_cons_of_mem _ hs))
      (cleanStep_unrooted_ok out e (hsegs e (List.mem_cons_self _ _)) hout)

/-- A step that leaves no `..` on the stack of a path that is not rooted does
the same on top of any stack of a rooted path. -/
theorem cleanStep_no_escape (T S : List GoString) (seg : GoString)
    (h : dotdot ∉ cleanStep false T seg) :
    dotdot ∉ T ∧ cleanStep true (T ++ S) seg = cleanStep false T seg ++ S := by
  by_cases h1 : seg = [] ∨ seg = dot
  · rw [cleanStep_skip _ _ _ h1] at h ⊢
    rw [cleanStep_skip _ _ _ h1]
    exact ⟨h, rfl⟩
  · by_cases h2 : seg = dotdot
    · subst h2
      cases T with
      | nil => rw [cleanStep_dotdot_nil] at h; simp at h
      | cons top rest =>
        rw [cleanStep_dotdot_cons] at h
        by_cases ht : top = dotdot
        · simp [ht] at h
        · rw [if_neg ht] at h
          refine ⟨?_, ?_⟩
          · intro hm
            rcases List.mem_cons.1 hm with e | e
            · exact ht e.symm
            · exact h e
          · rw [List.cons_append, cleanStep_dotdot_cons, cleanStep_dotdot_cons, if_neg ht, if_neg ht]
    · rw [cleanStep_push _ _ _ h1 h2] at h ⊢
      rw [cleanStep_push _ _ _ h1 h2]
      exact ⟨fun hm => h (List.mem_cons_of_mem _ hm), rfl⟩

theorem foldl_cleanStep_no_escape (segs T S : List GoString)
    (h : dotdot ∉ segs.foldl (cleanStep false) T) :
    dotdot ∉ T ∧
    segs.foldl (cleanStep true) (T ++ S) = segs.foldl (cleanStep false) T ++ S := by
  induction segs generalizing T with
  | nil => exact ⟨h, rfl⟩
  | cons e es ih =>
    rw [List.foldl_cons] at h
    obtain ⟨h1, h2⟩ := ih _ h
    obtain ⟨h3, h4⟩ := cleanStep_no_escape T S e h1
    exact ⟨h3, by rw [List.foldl_cons, List.foldl_cons, h4, h2]⟩

end Docs

namespace Docs


theorem isAbs_renderPath (P : List GoString) : IsAbs (renderPath true P) = true := by
  simp [renderPath, IsAbs]

theorem renderPath_ne_nil (P : List GoString) : renderPath true P ≠ [] := by
  simp [renderPath]

theorem foldl_splitPath_renderPath (P : List GoString) (h : ∀ s ∈ P, validName s = true) :
    (splitPath (renderPath true P)).foldl (cleanStep true) [] = P.reverse := by
  have hsep : ∀ s ∈ P, Separator ∉ s := fun s hs => ((validName_iff s).1 (h s hs)).2.2.2
  unfold renderPath
  simp only [if_true]
  rw [splitPath_cons_sep, List.foldl_cons, cleanStep_nil]
  by_cases hP : P = []
  · subst hP; rfl
  · rw [splitPath_joinSep P hP hsep, foldl_cleanStep_valid true P [] h]
    simp

theorem clean_of_isAbs (p : GoString) (h : IsAbs p = true) :
    Clean p = renderPath true (cleanSegs true (splitPath p)) ∧
    ∀ s ∈ cleanSegs true (splitPath p), validName s = true := by
  have hne : p ≠ [] := by rintro rfl; simp [IsAbs] at h
  refine ⟨by simp [Clean, hne, h], ?_⟩
  intro s hs
  unfold cleanSegs at hs
  rw [List.mem_reverse] at hs
  exact foldl_cleanStep_rooted_valid _ [] (fun s hs => not_sep_mem_of_mem_splitPath p s hs)
    (by simp) s hs

theorem clean_renderPath (P : List GoString) (h : ∀ s ∈ P, validName s = true) :
    Clean (renderPath true P) = renderPath true P := by
  rw [(clean_of_isAbs _ (isAbs_renderPath P)).1, cleanSegs, foldl_splitPath_renderPath P h,
    List.reverse_reverse]

/-- An absolute cleaned path is the rendering of its segments, valid names. -/
theorem exists_segments_of_clean (root : GoString) (habs : IsAbs root = true)
    (hclean : Clean root = root) :
    ∃ P, (∀ s ∈ P, validName s = true) ∧ root = renderPath true P := by
  obtain ⟨h1, h2⟩ := clean_of_isAbs root habs
  exact ⟨_, h2, by rw [← h1, hclean]⟩

/-- Joining onto an absolute cleaned path continues the cleaning loop on its
segments. -/
theorem join_renderPath (P : List GoString) (h : ∀ s ∈ P, validName s = true)
    (rel : GoString) :
    Join [renderPath true P, rel] =
      renderPath true ((splitPath rel).foldl (cleanStep true) P.reverse).reverse := by
  have hj : Join [renderPath true P, rel] = Clean (renderPath true P ++ Separator :: rel) := by
    simp [Join, List.dropWhile, renderPath_ne_nil, joinSep]
  have habs : IsAbs (renderPath true P ++ Separator :: rel) = true := by
    simp [renderPath, IsAbs]
  rw [hj, (clean_of_isAbs _ habs).1, cleanSegs, splitPath_append_sep, List.foldl_append,
    foldl_splitPath_renderPath P h]

theorem join_renderPath_valid (P : List GoString) (h : ∀ s ∈ P, validName s = true)
    (rel : GoString) :
    ∀ s ∈ ((splitPath rel).foldl (cleanStep true) P.reverse).reverse, validName s = true := by
  intro s hs
  rw [List.mem_reverse] at hs
  exact foldl_cleanStep_rooted_valid _ _ (fun s hs => not_sep_mem_of_mem_splitPath rel s hs)
    (fun s hs => h s (List.mem_reverse.1 hs)) s hs

/-- Joining a valid name onto an absolute cleaned path appends it. -/
theorem join_renderPath_name (P : List GoString) (h : ∀ s ∈ P, validName s = true)
    (name : GoString) (hn : validName name = true) :
    Join [renderPath true P, name] = renderPath true (P ++ [name]) := by
  rw [join_renderPath P h, splitPath_of_not_mem name ((validName_iff name).1 hn).2.2.2]
  simp [cleanStep_valid _ _ _ hn]

theorem hasPrefix_renderPath (P X : List GoString) :
    HasPrefix (renderPath true (P ++ X)) (renderPath true P) = true := by
  unfold HasPrefix renderPath
  simp only [if_true]
  rw [List.isPrefixOf_iff_prefix, List.prefix_cons_inj]
  exact joinSep_prefix P X

/-- The cleaned form of a relative path without `..` element comes from a
stack without `..`. -/
theorem no_dotdot_of_clean (rel : GoString) (hrel : IsAbs rel = false)
    (h : dotdot ∉ pathSegments (Clean rel)) :
    dotdot ∉ (splitPath rel).foldl (cleanStep false) [] := by
  intro hm
  have hok := foldl_cleanStep_unrooted_ok (splitPath rel) []
    (fun s hs => not_sep_mem_of_mem_splitPath rel s hs) (by simp)
  have hne : rel ≠ [] := by
    rintro rfl
    revert hm; decide
  have hT : ((splitPath rel).foldl (cleanStep false) []).reverse ≠ [] := by
    intro e
    rw [List.reverse_eq_nil_iff] at e
    rw [e] at hm
    exact absurd hm (List.not_mem_nil _)
  apply h
  unfold Clean
  rw [if_neg hne, hrel]
  unfold renderPath cleanSegs
  rw [if_neg (by simp), if_neg hT]
  unfold pathSegments
  rw [splitPath_joinSep _ hT (fun s hs => (hok s (List.mem_reverse.1 hs)).2.2)]
  rw [List.mem_filter]
  exact ⟨List.mem_reverse.2 hm, by decide⟩

/-- C7: for an absolute, cleaned storage root and a relative path whose cleaned
form has no `..` element, the containment check accepts the joined path, and
the joined path is the root or a descendant of it by whole path segments. -/
theorem containmentCheck_accepts_relative (root rel : GoString)
    (habs : IsAbs root = true) (hclean : Clean root = root)
    (hrel : IsAbs rel = false) (hne : dotdot ∉ pathSegments (Clean rel)) :
    containmentCheck root rel = true ∧ isWithin root (Join [root, rel]) := by
  obtain ⟨P, hP, rfl⟩ := exists_segments_of_clean root habs hclean
  have hT := no_dotdot_of_clean rel hrel hne
  have hfold := (foldl_cleanStep_no_escape (splitPath rel) [] P.reverse hT).2
  have hvalid := join_renderPath_valid P hP rel
  have hj := join_renderPath P hP rel
  rw [List.nil_append] at hfold
  rw [hfold, List.reverse_append, List.reverse_reverse] at hj hvalid
  refine ⟨?_, ?_⟩
  · unfold containmentCheck
    rw [hj]
    exact hasPrefix_renderPath P _
  · unfold isWithin
    rw [hj, pathSegments_renderPath P hP, pathSegments_renderPath _ hvalid]
    exact List.prefix_append _ _

/-- Instance of C7: root `/data`, relative path `notes/../notes/./a.md`. -/
theorem containmentCheck_accepts_relative_witness :
    containmentCheck rootData "notes/../notes/./a.md".toList = true ∧
    isWithin rootData (Join [rootData, "notes/../notes/./a.md".toList]) :=
  containmentCheck_accepts_relative rootData "notes/../notes/./a.md".toList
    (by decide) (by decide) (by decide) (by decide)

end Docs

namespace Docs


/-! ## Directory entries -/

theorem lookupEntry_cons (name n : GoString) (c : Node) (rest : List (GoString × Node)) :
    lookupEntry name ((n, c) :: rest) = if n = name then some c else lookupEntry name rest := rfl

theorem lookupEntry_replaceEntry_self (name : GoString) (c : Node) (es : List (GoString × Node))
    (h : (lookupEntry name es).isSome = true) :
    lookupEntry name (replaceEntry name c es) = some c := by
  induction es with
  | nil => simp [lookupEntry] at h
  | cons e rest ih =>
    obtain ⟨n, c0⟩ := e
    by_cases hn : n = name
    · simp [replaceEntry, lookupEntry_cons, hn]
    · rw [lookupEntry_cons, if_neg hn] at h
      simp [replaceEntry, lookupEntry_cons, hn, ih h]

theorem lookupEntry_replaceEntry_ne (name k : GoString) (c : Node) (es : List (GoString × Node))
    (hk : k ≠ name) : lookupEntry k (replaceEntry name c es) = lookupEntry k es := by
  induction es with
  | nil => rfl
  | cons e rest ih =>
    obtain ⟨n, c0⟩ := e
    by_cases hn : n = name
    · have : ¬ name = k := fun e => hk e.symm
      simp [replaceEntry, lookupEntry_cons, hn, this]
    · simp [replaceEntry, lookupEntry_cons, hn, ih]

theorem lookupEntry_addEntry_self (name : GoString) (c : Node) (es : List (GoString × Node))
    (h : lookupEntry name es = none) : lookupEntry name (addEntry name c es) = some c := by
  induction es with
  | nil => simp [addEntry, lookupEntry_cons]
  | cons e rest ih =>
    obtain ⟨n, c0⟩ := e
    rw [lookupEntry_cons] at h
    by_cases hn : n = name
    · simp [hn] at h
    · rw [if_neg hn] at h
      unfold addEntry
      split_ifs
      · simp [lookupEntry_cons]
      · simp [lookupEntry_cons, hn, ih h]

theorem lookupEntry_addEntry_ne (name k : GoString) (c : Node) (es : List (GoString × Node))
    (hk : k ≠ name) : lookupEntry k (addEntry name c es) = lookupEntry k es := by
  have hk2 : ¬ name = k := fun e => hk e.symm
  induction es with
  | nil => simp [addEntry, lookupEntry_cons, hk2, lookupEntry]
  | cons e rest ih =>
    obtain ⟨n, c0⟩ := e
    unfold addEntry
    split_ifs
    · simp [lookupEntry_cons, hk2]
    · simp [lookupEntry_cons, ih]

theorem lookupEntry_insertEntry_self (name : GoString) (c : Node) (es : List (GoString × Node)) :
    lookupEntry name (insertEntry name c es) = some c := by
  unfold insertEntry
  cases h : lookupEntry name es with
  | none => exact lookupEntry_addEntry_self name c es h
  | some c0 => exact lookupEntry_replaceEntry_self name c es (by simp [h])

theorem lookupEntry_insertEntry_ne (name k : GoString) (c : Node) (es : List (GoString × Node))
    (hk : k ≠ name) : lookupEntry k (insertEntry name c es) = lookupEntry k es := by
  unfold insertEntry
  cases lookupEntry name es with
  | none => exact lookupEntry_addEntry_ne name k c es hk
  | some c0 => exact lookupEntry_replaceEntry_ne name k c es hk

theorem lookupEntry_eq_none_iff (name : GoString) (es : List (GoString × Node)) :
    lookupEntry name es = none ↔ name ∉ es.map Prod.fst := by
  induction es with
  | nil => exact ⟨fun _ => List.not_mem_nil _, fun _ => rfl⟩
  | cons e rest ih =>
    obtain ⟨n, c0⟩ := e
    rw [lookupEntry_cons, List.map_cons, List.mem_cons]
    by_cases hn : n = name
    · rw [if_pos hn]
      exact ⟨fun h => (by cases h), fun h => absurd (Or.inl hn.symm) h⟩
    · rw [if_neg hn, ih]
      exact ⟨fun h => fun h2 => h2.elim (fun e => hn e.symm) h, fun h => fun h2 => h (Or.inr h2)⟩

theorem not_mem_names_removeEntry (name : GoString) (es : List (GoString × Node)) :
    name ∉ (removeEntry name es).map Prod.fst := by
  intro h
  obtain ⟨e, he, hn⟩ := List.mem_map.1 h
  unfold removeEntry at he
  have := (List.mem_filter.1 he).2
  rw [decide_eq_true_eq] at this
  exact this hn

theorem lookupEntry_removeEntry_self (name : GoString) (es : List (GoString × Node)) :
    lookupEntry name (removeEntry name es) = none :=
  (lookupEntry_eq_none_iff _ _).2 (not_mem_names_removeEntry name es)

theorem lookupEntry_removeEntry_ne (name k : GoString) (es : List (GoString × Node))
    (hk : k ≠ name) : lookupEntry k (removeEntry name es) = lookupEntry k es := by
  induction es with
  | nil => rfl
  | cons e rest ih =>
    obtain ⟨n, c0⟩ := e
    have hcons : removeEntry name ((n, c0) :: rest) =
        if n = name then removeEntry name rest else (n, c0) :: removeEntry name rest := by
      unfold removeEntry
      by_cases hn : n = name <;> simp [List.filter_cons, hn]
    rw [hcons, lookupEntry_cons]
    by_cases hn : n = name
    · have : ¬ n = k := fun e => hk (e.symm.trans hn)
      rw [if_pos hn, if_neg this, ih]
    · rw [if_neg hn, lookupEntry_cons, ih]

theorem replaceEntry_self (name : GoString) (c : Node) (es : List (GoString × Node))
    (h : lookupEntry name es = some c) : replaceEntry name c es = es := by
  induction es with
  | nil => rfl
  | cons e rest ih =>
    obtain ⟨n, c0⟩ := e
    rw [lookupEntry_cons] at h
    by_cases hn : n = name
    · rw [if_pos hn] at h
      cases h
      simp [replaceEntry, hn]
    · rw [if_neg hn] at h
      simp [replaceEntry, hn, ih h]

theorem insertEntry_self (name : GoString) (c : Node) (es : List (GoString × Node))
    (h : lookupEntry name es = some c) : insertEntry name c es = es := by
  unfold insertEntry
  rw [h]
  exact replaceEntry_self name c es h

theorem lookupEntry_setEntry_self (name : GoString) (r : Option Node)
    (es : List (GoString × Node)) : lookupEntry name (setEntry name r es) = r := by
  cases r with
  | none => exact lookupEntry_removeEntry_self name es
  | some c => exact lookupEntry_insertEntry_self name c es

theorem lookupEntry_setEntry_ne (name k : GoString) (r : Option Node)
    (es : List (GoString × Node)) (hk : k ≠ name) :
    lookupEntry k (setEntry name r es) = lookupEntry k es := by
  cases r with
  | none => exact lookupEntry_removeEntry_ne name k es hk
  | some c => exact lookupEntry_insertEntry_ne name k c es hk

/-! ## Lookup and change of a node -/

theorem lookup_nil (n : Node) : n.lookup [] = some n := by
  cases n <;> rfl

theorem lookup_file_cons (d : Bytes) (name : GoString) (rest : List GoString) :
    (Node.file d).lookup (name :: rest) = none := rfl

theorem lookup_dir_cons (es : List (GoString × Node)) (name : GoString) (rest : List GoString) :
    (Node.dir es).lookup (name :: rest) =
      match lookupEntry name es with
      | some c => c.lookup rest
      | none => none := rfl

theorem lookup_dir_singleton (es : List (GoString × Node)) (name : GoString) :
    (Node.dir es).lookup [name] = lookupEntry name es := by
  rw [lookup_dir_cons]
  cases lookupEntry name es with
  | none => rfl
  | some c => exact lookup_nil c

theorem lookup_append_singleton (Q : List GoString) (fs : Node) (es : List (GoString × Node))
    (last : GoString) (h : fs.lookup Q = some (.dir es)) :
    fs.lookup (Q ++ [last]) = lookupEntry last es := by
  induction Q generalizing fs with
  | nil =>
    rw [lookup_nil] at h
    cases h
    exact lookup_dir_singleton es last
  | cons name rest ih =>
    cases fs with
    | file d => rw [lookup_file_cons] at h; cases h
    | dir es0 =>
      rw [lookup_dir_cons] at h
      rw [List.cons_append, lookup_dir_cons]
      cases hl : lookupEntry name es0 with
      | none => rw [hl] at h; cases h
      | some c =>
        rw [hl] at h
        exact ih c h

theorem modify_nil (f : Option Node → Option (Option Node)) (n : Node) : n.modify f [] = none := by
  cases n <;> rfl

theorem modify_file (f : Option Node → Option (Option Node)) (d : Bytes)
    (segs : List GoString) : (Node.file d).modify f segs = none := by
  cases segs <;> rfl

theorem modify_dir_singleton (f : Option Node → Option (Option Node))
    (es : List (GoString × Node)) (name : GoString) :
    (Node.dir es).modify f [name] =
      match f (lookupEntry name es) with
      | none => none
      | some r => some (.dir (setEntry name r es)) := rfl

theorem modify_dir_cons (f : Option Node → Option (Option Node))
    (es : List (GoString × Node)) (name : GoString) (rest : List GoString) (hne : rest ≠ []) :
    (Node.dir es).modify f (name :: rest) =
      match lookupEntry name es with
      | some c =>
        match c.modify f rest with
        | some c1 => some (.dir (insertEntry name c1 es))
        | none => none
      | none => none := by
  cases rest with
  | nil => exact absurd rfl hne
  | cons seg rest2 => rfl

/-- After a change at a path, the path resolves to what the change put there;
the change was applied to what the path resolved to before. -/
theorem modify_lookup (f : Option Node → Option (Option Node)) (segs : List GoString)
    (fs fs1 : Node) (h : fs.modify f segs = some fs1) :
    f (fs.lookup segs) = some (fs1.lookup segs) := by
  induction segs generalizing fs fs1 with
  | nil => rw [modify_nil] at h; cases h
  | cons name rest ih =>
    cases fs with
    | file d => rw [modify_file] at h; cases h
    | dir es =>
      by_cases hr : rest = []
      · subst hr
        rw [modify_dir_singleton] at h
        rw [lookup_dir_singleton]
        cases hf : f (lookupEntry name es) with
        | none => rw [hf] at h; cases h
        | some r =>
          rw [hf] at h
          cases h
          rw [lookup_dir_singleton, lookupEntry_setEntry_self]
      · rw [modify_dir_cons f es name rest hr] at h
        rw [lookup_dir_cons]
        cases hl : lookupEntry name es with
        | none => rw [hl] at h; cases h
        | some c =>
          simp only [hl] at h ⊢
          cases hm : c.modify f rest with
          | none => rw [hm] at h; cases h
          | some c1 =>
            simp only [hm] at h
            cases h
            rw [lookup_dir_cons, lookupEntry_insertEntry_self]
            exact ih c c1 hm

/-- A change succeeds only below an existing directory. -/
theorem modify_parent (f : Option Node → Option (Option Node)) (segs : List GoString)
    (fs fs1 : Node) (h : fs.modify f segs = some fs1) :
    segs ≠ [] ∧ ∃ es, fs.lookup segs.dropLast = some (.dir es) := by
  induction segs generalizing fs fs1 with
  | nil => rw [modify_nil] at h; cases h
  | cons name rest ih =>
    refine ⟨by simp, ?_⟩
    cases fs with
    | file d => rw [modify_file] at h; cases h
    | dir es =>
      by_cases hr : rest = []
      · subst hr
        exact ⟨es, rfl⟩
      · rw [modify_dir_cons f es name rest hr] at h
        cases hl : lookupEntry name es with
        | none => rw [hl] at h; cases h
        | some c =>
          simp only [hl] at h
          cases hm : c.modify f rest with
          | none => rw [hm] at h; cases h
          | some c1 =>
            obtain ⟨_, es1, h1⟩ := ih c c1 hm
            refine ⟨es1, ?_⟩
            rw [List.dropLast_cons_of_ne_nil hr, lookup_dir_cons, hl]
            exact h1

/-- A change below an existing directory succeeds when the function accepts
the present entry, and the directory then holds the changed entries. -/
theorem modify_succeeds (f : Option Node → Option (Option Node)) (Q : List GoString)
    (fs : Node) (es : List (GoString × Node)) (last : GoString) (r : Option Node)
    (hQ : fs.lookup Q = some (.dir es)) (hf : f (lookupEntry last es) = some r) :
    ∃ fs1, fs.modify f (Q ++ [last]) = some fs1 ∧
      fs1.lookup Q = some (.dir (setEntry last r es)) := by
  induction Q generalizing fs with
  | nil =>
    rw [lookup_nil] at hQ
    cases hQ
    rw [List.nil_append, modify_dir_singleton, hf]
    exact ⟨_, rfl, lookup_nil _⟩
  | cons name rest ih =>
    cases fs with
    | file d => rw [lookup_file_cons] at hQ; cases hQ
    | dir es0 =>
      rw [lookup_dir_cons] at hQ
      cases hl : lookupEntry name es0 with
      | none => rw [hl] at hQ; cases hQ
      | some c =>
        simp only [hl] at hQ
        obtain ⟨c1, h1, h2⟩ := ih c hQ
        refine ⟨.dir (insertEntry name c1 es0), ?_, ?_⟩
        · rw [List.cons_append, modify_dir_cons f es0 name _ (by simp)]
          simp only [hl, h1]
        · rw [lookup_dir_cons, lookupEntry_insertEntry_self]
          exact h2

end Docs

namespace Docs


theorem dropWhile_append_of_all {α : Type} (p : α → Bool) (l m : List α) (x : α)
    (hl : ∀ a ∈ l, p a = true) (hx : p x = false) :
    (l ++ x :: m).dropWhile p = x :: m := by
  induction l with
  | nil => simp [List.dropWhile, hx]
  | cons a as ih =>
    rw [List.cons_append, List.dropWhile_cons, if_pos (hl a (List.mem_cons_self _ _))]
    exact ih (fun b hb => hl b (List.mem_cons_of_mem _ hb))

theorem takeWhile_append_of_all {α : Type} (p : α → Bool) (l m : List α) (x : α)
    (hl : ∀ a ∈ l, p a = true) (hx : p x = false) :
    (l ++ x :: m).takeWhile p = l := by
  induction l with
  | nil => simp [List.takeWhile, hx]
  | cons a as ih =>
    rw [List.cons_append, List.takeWhile_cons, if_pos (hl a (List.mem_cons_self _ _))]
    rw [ih (fun b hb => hl b (List.mem_cons_of_mem _ hb))]

/-- The rendering of a path with a last element: what precedes the last
separator, the separator, the last element. -/
theorem renderPath_append_singleton (Q : List GoString) (last : GoString) :
    renderPath true (Q ++ [last]) =
      (if Q = [] then [] else renderPath true Q) ++ Separator :: last := by
  by_cases hQ : Q = []
  · subst hQ; simp [renderPath, joinSep]
  · rw [if_neg hQ]
    simp [renderPath, joinSep_append_singleton Q hQ]

theorem dir_renderPath (Q : List GoString) (last : GoString)
    (hQ : ∀ s ∈ Q, validName s = true) (hl : validName last = true) :
    Dir (renderPath true (Q ++ [last])) = renderPath true Q := by
  have hsep : ∀ c ∈ last.reverse, (fun c => decide (c ≠ Separator)) c = true := by
    intro c hc
    have := ((validName_iff last).1 hl).2.2.2
    simp only [decide_eq_true_eq]
    rintro rfl
    exact this (List.mem_reverse.1 hc)
  unfold Dir
  rw [renderPath_append_singleton, List.reverse_append, List.reverse_cons, List.append_assoc,
    List.singleton_append, dropWhile_append_of_all _ _ _ _ hsep (by simp)]
  by_cases hQe : Q = []
  · subst hQe; decide
  · rw [if_neg hQe, List.reverse_cons, List.reverse_reverse]
    have habs : IsAbs (renderPath true Q ++ [Separator]) = true := by simp [renderPath, IsAbs]
    rw [(clean_of_isAbs _ habs).1, cleanSegs, splitPath_append_sep, List.foldl_append,
      foldl_splitPath_renderPath Q hQ]
    simp [splitPath, cleanStep_nil]

theorem base_renderPath (Q : List GoString) (last : GoString) (hl : validName last = true) :
    Base (renderPath true (Q ++ [last])) = last := by
  obtain ⟨hne, _, _, hsep⟩ := (validName_iff last).1 hl
  have hns : ∀ c ∈ last.reverse, (fun c => decide (c ≠ Separator)) c = true := by
    intro c hc
    simp only [decide_eq_true_eq]
    rintro rfl
    exact hsep (List.mem_reverse.1 hc)
  unfold Base
  rw [if_neg (renderPath_ne_nil _), renderPath_append_singleton, List.reverse_append,
    List.reverse_cons, List.append_assoc, List.singleton_append]
  have hdrop : (last.reverse ++ Separator :: (if Q = [] then [] else renderPath true Q).reverse).dropWhile
      (fun c => decide (c = Separator)) =
      last.reverse ++ Separator :: (if Q = [] then [] else renderPath true Q).reverse := by
    cases hr : last.reverse with
    | nil => exact absurd (List.reverse_eq_nil_iff.1 hr) hne
    | cons c cs =>
      have hc : c ≠ Separator := by
        have := hns c (by rw [hr]; exact List.mem_cons_self _ _)
        simpa using this
      simp [List.dropWhile_cons, hc]
  simp only [hdrop]
  rw [takeWhile_append_of_all _ _ _ _ hns (by simp), List.reverse_reverse, if_neg hne]

/-- Every path joined onto an absolute root is the rendering of valid names. -/
theorem join_of_isAbs (root rel : GoString) (habs : IsAbs root = true) :
    ∃ X, (∀ s ∈ X, validName s = true) ∧ Join [root, rel] = renderPath true X := by
  have hne : root ≠ [] := by rintro rfl; simp [IsAbs] at habs
  have hj : Join [root, rel] = Clean (root ++ Separator :: rel) := by
    simp [Join, List.dropWhile, hne, joinSep]
  have habs2 : IsAbs (root ++ Separator :: rel) = true := by
    cases root with
    | nil => exact absurd rfl hne
    | cons c cs => simpa [IsAbs] using habs
  obtain ⟨h1, h2⟩ := clean_of_isAbs _ habs2
  exact ⟨_, h2, by rw [hj, h1]⟩

end Docs

namespace Docs


theorem byteLen_append (a b : GoString) : byteLen (a ++ b) = byteLen a + byteLen b := by
  simp [byteLen]

theorem byteLen_mono (a b : GoString) (h : a <+: b) : byteLen a ≤ byteLen b := by
  obtain ⟨t, rfl⟩ := h
  rw [byteLen_append]
  exact Nat.le_add_right _ _

theorem osPathOK_iff (path : GoString) :
    osPathOK path = true ↔
      (Char.ofNat 0) ∉ path ∧ byteLen path ≤ pathMax ∧
        ∀ seg ∈ pathSegments path, byteLen seg ≤ nameMax := by
  simp only [osPathOK, Bool.and_eq_true, decide_eq_true_eq, List.all_eq_true, and_assoc]

/-- A path the operating system takes stays one when elements are dropped from
its end. -/
theorem osPathOK_renderPath_prefix (P Y : List GoString)
    (hv : ∀ s ∈ P ++ Y, validName s = true)
    (h : osPathOK (renderPath true (P ++ Y)) = true) : osPathOK (renderPath true P) = true := by
  have hP : ∀ s ∈ P, validName s = true := fun s hs => hv s (List.mem_append_left _ hs)
  have hpre : renderPath true P <+: renderPath true (P ++ Y) :=
    List.isPrefixOf_iff_prefix.1 (hasPrefix_renderPath P Y)
  rw [osPathOK_iff] at h ⊢
  obtain ⟨h1, h2, h3⟩ := h
  rw [pathSegments_renderPath _ hv] at h3
  rw [pathSegments_renderPath _ hP]
  refine ⟨fun hm => h1 (hpre.subset hm), Nat.le_trans (byteLen_mono _ _ hpre) h2, ?_⟩
  exact fun seg hs => h3 seg (List.mem_append_left _ hs)

theorem mkdirAll_file (d : Bytes) (done segs : List GoString) :
    (Node.file d).mkdirAll done segs = (.file d, false) := by
  cases segs <;> rfl

theorem mkdirAll_dir_nil (es : List (GoString × Node)) (done : List GoString) :
    (Node.dir es).mkdirAll done [] = (.dir es, true) := rfl

theorem mkdirAll_dir_cons (es : List (GoString × Node)) (done : List GoString)
    (name : GoString) (rest : List GoString)
    (hok : osPathOK (renderPath true (done ++ [name])) = true) :
    (Node.dir es).mkdirAll done (name :: rest) =
      match lookupEntry name es with
      | some c =>
        ((Node.dir (insertEntry name (c.mkdirAll (done ++ [name]) rest).1 es)),
          (c.mkdirAll (done ++ [name]) rest).2)
      | none =>
        ((Node.dir (insertEntry name ((Node.dir []).mkdirAll (done ++ [name]) rest).1 es)),
          ((Node.dir []).mkdirAll (done ++ [name]) rest).2) := by
  simp only [Node.mkdirAll, hok, if_true]

theorem lookup_empty_dir_cons (name : GoString) (rest : List GoString) :
    (Node.dir []).lookup (name :: rest) = none := rfl

/-- `MkdirAll` succeeds when the operating system takes the path and no
component of it is a regular file; the path is a directory afterwards, and an
entry of it is a directory afterwards exactly when it was one before. -/
theorem mkdirAll_succeeds (Q done : List GoString) (fs : Node)
    (hok : ∀ P, P <+: Q → P ≠ [] → osPathOK (renderPath true (done ++ P)) = true)
    (h : ∀ Q1, Q1 <+: Q → ∀ d, fs.lookup Q1 ≠ some (.file d)) :
    ∃ fs1, fs.mkdirAll done Q = (fs1, true) ∧ (∃ es, fs1.lookup Q = some (.dir es)) ∧
      ∀ last, (∃ es, fs1.lookup (Q ++ [last]) = some (.dir es)) ↔
        (∃ es, fs.lookup (Q ++ [last]) = some (.dir es)) := by
  induction Q generalizing fs done with
  | nil =>
    cases fs with
    | file d => exact absurd (lookup_nil _) (h [] (List.prefix_refl _) d)
    | dir es => exact ⟨.dir es, rfl, ⟨es, rfl⟩, fun _ => Iff.rfl⟩
  | cons name rest ih =>
    cases fs with
    | file d => exact absurd (lookup_nil _) (h [] List.nil_prefix d)
    | dir es =>
      have hname : osPathOK (renderPath true (done ++ [name])) = true :=
        hok [name] ((List.prefix_cons_inj name).2 List.nil_prefix) (by simp)
      have hok2 : ∀ P, P <+: rest → P ≠ [] →
          osPathOK (renderPath true ((done ++ [name]) ++ P)) = true := by
        intro P hP hne
        rw [List.append_assoc, List.singleton_append]
        exact hok (name :: P) ((List.prefix_cons_inj name).2 hP) (by simp)
      rw [mkdirAll_dir_cons es done name rest hname]
      cases hl : lookupEntry name es with
      | some c =>
        have hc : ∀ Q1, Q1 <+: rest → ∀ d, c.lookup Q1 ≠ some (.file d) := by
          intro Q1 hQ1 d
          have := h (name :: Q1) ((List.prefix_cons_inj name).2 hQ1) d
          rw [lookup_dir_cons] at this
          simpa only [hl] using this
        obtain ⟨c1, h1, h2, h3⟩ := ih (done ++ [name]) c hok2 hc
        refine ⟨.dir (insertEntry name c1 es), by simp only [h1], ?_, ?_⟩
        · rw [lookup_dir_cons, lookupEntry_insertEntry_self]; exact h2
        · intro last
          rw [List.cons_append, lookup_dir_cons, lookupEntry_insertEntry_self, lookup_dir_cons]
          simp only [hl]
          exact h3 last
      | none =>
        have hc : ∀ Q1, Q1 <+: rest → ∀ d, (Node.dir []).lookup Q1 ≠ some (.file d) := by
          intro Q1 _ d
          cases Q1 with
          | nil => rw [lookup_nil]; intro e; cases e
          | cons a as => rw [lookup_empty_dir_cons]; intro e; cases e
        obtain ⟨c1, h1, h2, h3⟩ := ih (done ++ [name]) (.dir []) hok2 hc
        refine ⟨.dir (insertEntry name c1 es), by simp only [h1], ?_, ?_⟩
        · rw [lookup_dir_cons, lookupEntry_insertEntry_self]; exact h2
        · intro last
          rw [List.cons_append, lookup_dir_cons, lookupEntry_insertEntry_self, lookup_dir_cons]
          simp only [hl]
          rw [h3 last]
          cases hr : rest ++ [last] with
          | nil => simp at hr
          | cons a as => rw [lookup_empty_dir_cons]

theorem lookup_parent (Q : List GoString) (fs n : Node) (last : GoString)
    (h : fs.lookup (Q ++ [last]) = some n) :
    ∃ es, fs.lookup Q = some (.dir es) ∧ lookupEntry last es = some n := by
  induction Q generalizing fs with
  | nil =>
    cases fs with
    | file d => rw [List.nil_append, lookup_file_cons] at h; cases h
    | dir es =>
      rw [List.nil_append, lookup_dir_singleton] at h
      exact ⟨es, rfl, h⟩
  | cons name rest ih =>
    cases fs with
    | file d => rw [List.cons_append, lookup_file_cons] at h; cases h
    | dir es0 =>
      rw [List.cons_append, lookup_dir_cons] at h
      rw [lookup_dir_cons]
      cases hl : lookupEntry name es0 with
      | none => rw [hl] at h; cases h
      | some c =>
        simp only [hl] at h ⊢
        exact ih c h

theorem writeFile_eq (fs : Node) (path : GoString) (data : Bytes) (hok : osPathOK path = true) :
    WriteFile fs path data = fs.modify (writeChange data) (pathSegments path) := by
  unfold WriteFile
  rw [if_pos hok]

theorem mkdir_eq (fs : Node) (path : GoString) (hok : osPathOK path = true) :
    Mkdir fs path = fs.modify mkdirChange (pathSegments path) := by
  unfold Mkdir
  rw [if_pos hok]

theorem osPathOK_of_writeFile (fs fs2 : Node) (path : GoString) (data : Bytes)
    (h : WriteFile fs path data = some fs2) : osPathOK path = true := by
  unfold WriteFile at h
  split_ifs at h with hok
  exact hok

theorem osPathOK_of_mkdir (fs fs1 : Node) (path : GoString)
    (h : Mkdir fs path = some fs1) : osPathOK path = true := by
  unfold Mkdir at h
  split_ifs at h with hok
  exact hok

theorem readFile_writeFile (fs fs2 : Node) (path : GoString) (data : Bytes)
    (h : WriteFile fs path data = some fs2) : ReadFile fs2 path = some data := by
  rw [writeFile_eq fs path data (osPathOK_of_writeFile fs fs2 path data h)] at h
  have := modify_lookup _ _ _ _ h
  unfold ReadFile
  cases hl : fs.lookup (pathSegments path) with
  | none =>
    rw [hl] at this
    simp only [writeChange, Option.some.injEq] at this
    rw [← this]
  | some n =>
    rw [hl] at this
    cases n with
    | file d =>
      simp only [writeChange, Option.some.injEq] at this
      rw [← this]
    | dir es => simp [writeChange] at this

theorem mkdir_then_exists (fs fs1 : Node) (path : GoString) (h : Mkdir fs path = some fs1) :
    Mkdir fs1 path = none := by
  have hok := osPathOK_of_mkdir fs fs1 path h
  rw [mkdir_eq fs path hok] at h
  rw [mkdir_eq fs1 path hok]
  have h1 := modify_lookup _ _ _ _ h
  have h2 : fs1.lookup (pathSegments path) = some (.dir []) := by
    cases hl : fs.lookup (pathSegments path) with
    | none =>
      rw [hl] at h1
      simp only [mkdirChange, Option.some.injEq] at h1
      rw [← h1]
    | some n => rw [hl] at h1; simp [mkdirChange] at h1
  cases hm : fs1.modify mkdirChange (pathSegments path) with
  | none => rfl
  | some fs2 =>
    have h3 := modify_lookup _ _ _ _ hm
    rw [h2] at h3
    simp [mkdirChange] at h3

theorem remove_nonempty_dir (fs : Node) (path : GoString) (e : GoString × Node)
    (es : List (GoString × Node))
    (h : fs.lookup (pathSegments path) = some (.dir (e :: es))) : Remove fs path = none := by
  unfold Remove
  cases hm : fs.modify removeChange (pathSegments path) with
  | none => rfl
  | some fs1 =>
    have h3 := modify_lookup _ _ _ _ hm
    rw [h] at h3
    simp [removeChange] at h3

theorem bearerAuth_of_authorized (toks : GoString → Bool) (h : GoString)
    (ha : authorized toks h = true) : bearerAuth toks h = none := by
  unfold authorized at ha
  cases hb : bearerAuth toks h with
  | none => rfl
  | some r => rw [hb] at ha; cases ha

/-- The `POST` branch of `pageHandler` for an authorised request that passes
the checks. -/
theorem pageHandler_post (cfg : Config) (fs : Node) (r : Request) (b : Bytes)
    (hp : r.path ≠ []) (hc : containmentCheck cfg.storagePath r.path = true)
    (hm : r.method = "POST".toList) (ha : authorized cfg.authTokens r.authorization = true)
    (hb : r.body = some b) :
    pageHandler cfg fs r =
      match MkdirAll fs (Dir (Join [cfg.storagePath, r.path])) with
      | (fs1, false) => (httpError "Failed to create directories" 500, fs1)
      | (fs1, true) =>
        match WriteFile fs1 (Join [cfg.storagePath, r.path]) b with
        | none => (httpError "Failed to write file" 500, fs1)
        | some fs2 => (⟨200, .text ("File ".toList ++ r.path ++ " saved".toList)⟩, fs2) := by
  unfold containmentCheck at hc
  have hne : ¬ ("POST".toList = "GET".toList) := by decide
  unfold pageHandler
  simp only [hp, hc, hm, hne, bearerAuth_of_authorized _ _ ha, hb, if_false, if_true,
    Bool.not_true]
  rfl

theorem pageHandler_get (cfg : Config) (fs : Node) (r : Request)
    (hp : r.path ≠ []) (hc : containmentCheck cfg.storagePath r.path = true)
    (hm : r.method = "GET".toList) :
    pageHandler cfg fs r =
      match ReadFile fs (Join [cfg.storagePath, r.path]) with
      | none => (httpError "Could not read file" 404, fs)
      | some data => (⟨200, .raw data⟩, fs) := by
  unfold containmentCheck at hc
  unfold pageHandler
  simp only [hp, hc, hm, if_false, if_true, Bool.not_true]
  rfl

theorem pageHandler_ok_checks (cfg : Config) (fs : Node) (r : Request)
    (hok : (pageHandler cfg fs r).1.status = 200) :
    r.path ≠ [] ∧ containmentCheck cfg.storagePath r.path = true := by
  unfold containmentCheck
  by_cases hp : r.path = []
  · simp [pageHandler, hp, httpError] at hok
  · refine ⟨hp, ?_⟩
    by_cases hc : HasPrefix (Join [cfg.storagePath, r.path]) cfg.storagePath = true
    · exact hc
    · simp [pageHandler, hp, hc, httpError] at hok

theorem dirHandler_post (cfg : Config) (fs : Node) (r : Request) (name : GoString)
    (hc : containmentCheck cfg.storagePath r.path = true)
    (hm : r.method = "POST".toList) (ha : authorized cfg.authTokens r.authorization = true)
    (hn : r.jsonName = some name) (hne : name ≠ []) :
    dirHandler cfg fs r =
      match Mkdir fs (Join [Join [cfg.storagePath, r.path], name]) with
      | none => (httpError "Failed to create directory" 500, fs)
      | some fs1 => (⟨200, .text ("Directory ".toList ++ name ++ " created".toList)⟩, fs1) := by
  unfold containmentCheck at hc
  have hg : ¬ ("POST".toList = "GET".toList) := by decide
  unfold dirHandler
  simp only [hc, hm, hg, bearerAuth_of_authorized _ _ ha, hn, hne, if_false, if_true,
    Bool.not_true]
  rfl

theorem dirHandler_delete (cfg : Config) (fs : Node) (r : Request)
    (hc : containmentCheck cfg.storagePath r.path = true)
    (hm : r.method = "DELETE".toList) (ha : authorized cfg.authTokens r.authorization = true) :
    dirHandler cfg fs r =
      match Remove fs (Join [cfg.storagePath, r.path]) with
      | none => (httpError "Directory not empty or could not be removed" 400, fs)
      | some fs1 => (⟨200, .text ("Directory ".toList ++ r.path ++ " deleted".toList)⟩, fs1) := by
  unfold containmentCheck at hc
  have hg : ¬ ("DELETE".toList = "GET".toList) := by decide
  have hpo : ¬ ("DELETE".toList = "POST".toList) := by decide
  unfold dirHandler
  simp only [hc, hm, hg, hpo, bearerAuth_of_authorized _ _ ha, if_false, if_true,
    Bool.not_true]
  rfl

end Docs

namespace Docs

/-! ## Storage operations -/

theorem formFile_single (maxMemory : Nat) (r : Request) (part : FilePart)
    (hm : r.multipart = some [part]) (hf : part.field = "file".toList) :
    ∃ form, ParseMultipartForm maxMemory r = some form ∧
      FormFile form "file".toList = some part := by
  unfold ParseMultipartForm
  rw [hm]
  by_cases hl : part.data.length ≤ maxMemory
  · refine ⟨_, rfl, ?_⟩
    simp [FormFile, hl, hf]
  · refine ⟨_, rfl, ?_⟩
    simp [FormFile, hl, hf]

theorem uploadHandler_big (data : Bytes) :
    uploadHandler cfgData fsData (uploadOf data) =
      (⟨200, .text "File big.bin uploaded".toList⟩,
       .dir [("data".toList, .dir [("big.bin".toList, .file data),
          ("notes".toList, .dir [("a.md".toList, .file (bytesOf "hello"))])]),
        ("victim.txt".toList, .file (bytesOf "keep"))]) := by
  obtain ⟨form, hp, hf⟩ := formFile_single uploadLimit (uploadOf data)
    ⟨"file".toList, "big.bin".toList, data⟩ rfl rfl
  have hpath : (uploadOf data).path = [] := rfl
  have hauth : (uploadOf data).authorization = "Bearer secret".toList := rfl
  have hmeth : (uploadOf data).method = "POST".toList := rfl
  have hc : HasPrefix (Join [cfgData.storagePath, []]) cfgData.storagePath = true := by decide
  have hb : bearerAuth cfgData.authTokens "Bearer secret".toList = none := by decide
  have hj : Join [Join [cfgData.storagePath, []], "big.bin".toList] = "/data/big.bin".toList := by
    decide
  have hseg : pathSegments "/data/big.bin".toList = ["data".toList, "big.bin".toList] := by decide
  have hok : osPathOK "/data/big.bin".toList = true := by decide
  unfold uploadHandler
  simp only [hpath, hauth, hc, hb, hmeth, hp, hf, hj, Bool.not_true, if_true, if_false]
  simp only [WriteFile, hseg, hok, if_true]
  rfl

/-- C8 (defect of the code): an authorised upload of a file one byte over the
limit `10 << 20` is parsed without error (`ParseMultipartForm` spills it to a
temporary file), answered 200, and stored in full at the target path, which
did not exist before. -/
theorem upload_over_limit_is_stored :
    uploadLimit < bigData.length ∧
    (uploadHandler cfgData fsData (uploadOf bigData)).1.status = 200 ∧
    ReadFile fsData "/data/big.bin".toList = none ∧
    ReadFile (uploadHandler cfgData fsData (uploadOf bigData)).2 "/data/big.bin".toList =
      some bigData := by
  refine ⟨by simp [bigData], ?_, by decide, ?_⟩
  · rw [uploadHandler_big]
  · rw [uploadHandler_big]
    have hseg : pathSegments "/data/big.bin".toList = ["data".toList, "big.bin".toList] := by decide
    simp only [ReadFile, hseg]
    rfl

/-- C5 (amended): for an authorised `POST page?path=p` with body `b`: whenever
it is answered 200, the following `GET page?path=p` is answered 200 with
exactly `b`; and it is answered 200 when the storage root is absolute, `p` is
not empty and passes the containment check, the operating system takes the
target path (no NUL byte, at most `PATH_MAX` bytes, no element over `NAME_MAX`
bytes), no component of the directory of the target is a regular file and the
target is not a directory. -/
theorem writePage_readPage (cfg : Config) (fs : Node) (r : Request) (b : Bytes)
    (hm : r.method = "POST".toList) (ha : authorized cfg.authTokens r.authorization = true)
    (hb : r.body = some b) :
    ((pageHandler cfg fs r).1.status = 200 →
      pageHandler cfg (pageHandler cfg fs r).2 (getPage r.path) =
        (⟨200, .raw b⟩, (pageHandler cfg fs r).2)) ∧
    (IsAbs cfg.storagePath = true → r.path ≠ [] →
      containmentCheck cfg.storagePath r.path = true →
      osPathOK (Join [cfg.storagePath, r.path]) = true →
      (∀ Q, Q <+: pathSegments (Dir (Join [cfg.storagePath, r.path])) →
        ∀ d, fs.lookup Q ≠ some (.file d)) →
      (∀ es, fs.lookup (pathSegments (Join [cfg.storagePath, r.path])) ≠ some (.dir es)) →
      (pageHandler cfg fs r).1.status = 200) := by
  constructor
  · intro hok
    obtain ⟨hp, hc⟩ := pageHandler_ok_checks cfg fs r hok
    rw [pageHandler_post cfg fs r b hp hc hm ha hb] at hok ⊢
    cases h1 : MkdirAll fs (Dir (Join [cfg.storagePath, r.path])) with
    | mk fs1 ok =>
      cases ok with
      | false => rw [h1] at hok; simp [httpError] at hok
      | true =>
        simp only [h1] at hok ⊢
        cases h2 : WriteFile fs1 (Join [cfg.storagePath, r.path]) b with
        | none => rw [h2] at hok; simp [httpError] at hok
        | some fs2 =>
          simp only [h2]
          rw [pageHandler_get cfg fs2 (getPage r.path) hp hc rfl]
          show (match ReadFile fs2 (Join [cfg.storagePath, r.path]) with
            | none => (httpError "Could not read file" 404, fs2)
            | some data => (⟨200, .raw data⟩, fs2)) = _
          rw [readFile_writeFile fs1 fs2 _ b h2]
  · intro habs hp hc hos hanc htarget
    obtain ⟨X, hX, hj⟩ := join_of_isAbs cfg.storagePath r.path habs
    rw [pageHandler_post cfg fs r b hp hc hm ha hb]
    rw [hj] at hanc hos
    rw [hj, pathSegments_renderPath X hX] at htarget
    rw [hj]
    have hXne : X ≠ [] := by
      rintro rfl
      have hd : Dir (renderPath true []) = renderPath true [] := by decide
      rw [hd, pathSegments_renderPath [] (by simp)] at hanc
      cases fs with
      | file d => exact hanc [] (List.prefix_refl _) d (lookup_nil _)
      | dir es => exact htarget es (lookup_nil _)
    obtain ⟨Q, last, rfl⟩ : ∃ Q last, X = Q ++ [last] :=
      ⟨X.dropLast, X.getLast hXne, (List.dropLast_append_getLast hXne).symm⟩
    have hQ : ∀ s ∈ Q, validName s = true := fun s hs => hX s (List.mem_append_left _ hs)
    have hl : validName last = true := hX last (by simp)
    rw [dir_renderPath Q last hQ hl, pathSegments_renderPath Q hQ] at hanc
    rw [dir_renderPath Q last hQ hl]
    have hpre : ∀ P, P <+: Q → P ≠ [] → osPathOK (renderPath true ([] ++ P)) = true := by
      rintro P ⟨Y, rfl⟩ _
      rw [List.nil_append]
      refine osPathOK_renderPath_prefix P (Y ++ [last]) ?_ ?_
      · rw [← List.append_assoc]; exact hX
      · rw [← List.append_assoc]; exact hos
    obtain ⟨fs1, h1, ⟨es1, h2⟩, h3⟩ := mkdirAll_succeeds Q [] fs hpre hanc
    have h1' : MkdirAll fs (renderPath true Q) = (fs1, true) := by
      unfold MkdirAll
      rw [pathSegments_renderPath Q hQ]
      exact h1
    have hnd : ∀ es, lookupEntry last es1 ≠ some (.dir es) := by
      intro es he
      have : ∃ es, fs1.lookup (Q ++ [last]) = some (.dir es) :=
        ⟨es, by rw [lookup_append_singleton Q fs1 es1 last h2]; exact he⟩
      obtain ⟨es2, h4⟩ := (h3 last).1 this
      exact htarget es2 h4
    have hf : writeChange b (lookupEntry last es1) = some (some (.file b)) := by
      cases hl1 : lookupEntry last es1 with
      | none => rfl
      | some n =>
        cases n with
        | file d => rfl
        | dir es => exact absurd hl1 (hnd es)
    obtain ⟨fs2, h5, _⟩ := modify_succeeds _ Q fs1 es1 last _ h2 hf
    have h5' : WriteFile fs1 (renderPath true (Q ++ [last])) b = some fs2 := by
      rw [writeFile_eq _ _ _ hos, pathSegments_renderPath _ hX]
      exact h5
    simp only [h1', h5']

/-- C9: for an authorised `DELETE dir` whose path passes the containment check
(storage root absolute): on a directory with at least one entry the answer is
400 `Directory not empty or could not be removed` and the file system is
unchanged; on an empty directory other than the file-system root the answer is
200, the path no longer resolves, and the listing of its parent directory no
longer has its name. -/
theorem deleteDirectory_spec (cfg : Config) (fs : Node) (r : Request)
    (habs : IsAbs cfg.storagePath = true) (hm : r.method = "DELETE".toList)
    (ha : authorized cfg.authTokens r.authorization = true)
    (hc : containmentCheck cfg.storagePath r.path = true) :
    (∀ e es, fs.lookup (pathSegments (Join [cfg.storagePath, r.path])) = some (.dir (e :: es)) →
      dirHandler cfg fs r =
        (httpError "Directory not empty or could not be removed" 400, fs)) ∧
    (fs.lookup (pathSegments (Join [cfg.storagePath, r.path])) = some (.dir []) →
      pathSegments (Join [cfg.storagePath, r.path]) ≠ [] →
      (dirHandler cfg fs r).1.status = 200 ∧
      (dirHandler cfg fs r).2.lookup (pathSegments (Join [cfg.storagePath, r.path])) = none ∧
      ∃ listing, ReadDir (dirHandler cfg fs r).2 (Dir (Join [cfg.storagePath, r.path])) =
          some listing ∧
        Base (Join [cfg.storagePath, r.path]) ∉ listing.map Prod.fst) := by
  rw [dirHandler_delete cfg fs r hc hm ha]
  constructor
  · intro e es h
    rw [remove_nonempty_dir fs _ e es h]
  · intro h hne
    obtain ⟨X, hX, hj⟩ := join_of_isAbs cfg.storagePath r.path habs
    rw [hj, pathSegments_renderPath X hX] at h hne
    rw [hj, pathSegments_renderPath X hX]
    obtain ⟨Q, last, rfl⟩ : ∃ Q last, X = Q ++ [last] :=
      ⟨X.dropLast, X.getLast hne, (List.dropLast_append_getLast hne).symm⟩
    have hQ : ∀ s ∈ Q, validName s = true := fun s hs => hX s (List.mem_append_left _ hs)
    have hl : validName last = true := hX last (by simp)
    obtain ⟨es, h1, h2⟩ := lookup_parent Q fs _ last h
    have hf : removeChange (lookupEntry last es) = some none := by rw [h2]; rfl
    obtain ⟨fs1, h3, h4⟩ := modify_succeeds removeChange Q fs es last none h1 hf
    have h3' : Remove fs (renderPath true (Q ++ [last])) = some fs1 := by
      unfold Remove
      rw [pathSegments_renderPath _ hX]
      exact h3
    rw [h3']
    refine ⟨rfl, ?_, ?_⟩
    · rw [lookup_append_singleton Q fs1 _ last h4]
      exact lookupEntry_removeEntry_self last es
    · rw [dir_renderPath Q last hQ hl, base_renderPath Q last hl]
      unfold ReadDir
      rw [pathSegments_renderPath Q hQ, h4]
      refine ⟨_, rfl, ?_⟩
      rw [List.map_map]
      exact not_mem_names_removeEntry last es

/-- C10 (amended): for an authorised `POST dir` with the JSON name `name` whose
path passes the containment check (storage root absolute): whenever a first
request is answered 200, the same request again is answered 500 `Failed to
create directory` and changes nothing; when `name` is a single path element
(not empty, not `.` or `..`, no separator), the first request is answered 200
if the parent directory exists, has no entry `name`, and the operating system
takes the target path (no NUL byte, at most `PATH_MAX` bytes, no element over
`NAME_MAX` bytes), and with a missing parent the answer is the same 500
`Failed to create directory`, the file system unchanged. -/
theorem createDirectory_twice (cfg : Config) (fs : Node) (r : Request) (name : GoString)
    (habs : IsAbs cfg.storagePath = true) (hm : r.method = "POST".toList)
    (ha : authorized cfg.authTokens r.authorization = true)
    (hc : containmentCheck cfg.storagePath r.path = true)
    (hn : r.jsonName = some name) :
    ((dirHandler cfg fs r).1.status = 200 →
      dirHandler cfg (dirHandler cfg fs r).2 r =
        (httpError "Failed to create directory" 500, (dirHandler cfg fs r).2)) ∧
    (validName name = true →
      osPathOK (Join [Join [cfg.storagePath, r.path], name]) = true →
      ∀ es, fs.lookup (pathSegments (Join [cfg.storagePath, r.path])) = some (.dir es) →
      lookupEntry name es = none → (dirHandler cfg fs r).1.status = 200) ∧
    (validName name = true →
      fs.lookup (pathSegments (Join [cfg.storagePath, r.path])) = none →
      dirHandler cfg fs r = (httpError "Failed to create directory" 500, fs)) := by
  have hsegs : validName name = true → ∃ X, (∀ s ∈ X, validName s = true) ∧
      pathSegments (Join [cfg.storagePath, r.path]) = X ∧
      pathSegments (Join [Join [cfg.storagePath, r.path], name]) = X ++ [name] := by
    intro hv
    obtain ⟨X, hX, hj⟩ := join_of_isAbs cfg.storagePath r.path habs
    refine ⟨X, hX, by rw [hj, pathSegments_renderPath X hX], ?_⟩
    rw [hj, join_renderPath_name X hX name hv, pathSegments_renderPath]
    intro s hs
    rcases List.mem_append.1 hs with h | h
    · exact hX s h
    · rw [List.mem_singleton.1 h]; exact hv
  refine ⟨?_, ?_, ?_⟩
  · intro hok
    have hne : name ≠ [] := by
      rintro rfl
      unfold containmentCheck at hc
      simp [dirHandler, hc, hm, hn, bearerAuth_of_authorized _ _ ha, httpError] at hok
    rw [dirHandler_post cfg fs r name hc hm ha hn hne] at hok ⊢
    cases h1 : Mkdir fs (Join [Join [cfg.storagePath, r.path], name]) with
    | none => rw [h1] at hok; simp [httpError] at hok
    | some fs1 =>
      simp only [h1]
      rw [dirHandler_post cfg fs1 r name hc hm ha hn hne, mkdir_then_exists fs fs1 _ h1]
  · intro hv hos es hl hnone
    obtain ⟨X, _, h1, h2⟩ := hsegs hv
    rw [dirHandler_post cfg fs r name hc hm ha hn ((validName_iff name).1 hv).1]
    rw [h1] at hl
    have hf : mkdirChange (lookupEntry name es) = some (some (.dir [])) := by rw [hnone]; rfl
    obtain ⟨fs1, h3, _⟩ := modify_succeeds mkdirChange X fs es name _ hl hf
    have h3' : Mkdir fs (Join [Join [cfg.storagePath, r.path], name]) = some fs1 := by
      rw [mkdir_eq _ _ hos, h2]
      exact h3
    simp only [h3']
  · intro hv hl
    obtain ⟨X, _, h1, h2⟩ := hsegs hv
    rw [dirHandler_post cfg fs r name hc hm ha hn ((validName_iff name).1 hv).1]
    rw [h1] at hl
    have h3 : Mkdir fs (Join [Join [cfg.storagePath, r.path], name]) = none := by
      cases hmk : Mkdir fs (Join [Join [cfg.storagePath, r.path], name]) with
      | none => rfl
      | some fs1 =>
        rw [mkdir_eq _ _ (osPathOK_of_mkdir _ _ _ hmk), h2] at hmk
        obtain ⟨_, es, h4⟩ := modify_parent _ _ _ _ hmk
        rw [List.dropLast_concat, hl] at h4
        cases h4
    simp only [h3]

/-- Scenario A as an instance of C5: on the empty storage root, the authorised
`POST page?path=notes/a.md` with body `hello` is answered 200, and the
following `GET` returns `hello`. -/
theorem writePage_readPage_witness :
    (pageHandler cfgData fsRoot (postPage "notes/a.md" "hello")).1.status = 200 ∧
    pageHandler cfgData (pageHandler cfgData fsRoot (postPage "notes/a.md" "hello")).2
        (getPage "notes/a.md".toList) =
      (⟨200, .raw (bytesOf "hello")⟩,
        (pageHandler cfgData fsRoot (postPage "notes/a.md" "hello")).2) :=
  ⟨(writePage_readPage cfgData fsRoot (postPage "notes/a.md" "hello") (bytesOf "hello")
      rfl (by decide) rfl).2 (by decide) (by decide) (by decide) (by decide)
    (fun Q hQ d h => by
      have hseg : pathSegments (Dir (Join [cfgData.storagePath,
          (postPage "notes/a.md" "hello").path])) = ["data".toList, "notes".toList] := by decide
      rw [hseg] at hQ
      obtain ⟨t, ht⟩ := hQ
      match Q, ht, h with
      | [], _, h => cases h
      | [a], ht, h =>
        simp only [List.cons_append, List.nil_append, List.cons.injEq] at ht
        obtain ⟨rfl, _⟩ := ht
        cases h
      | a :: b :: Q2, ht, h =>
        simp only [List.cons_append, List.cons.injEq] at ht
        obtain ⟨rfl, rfl, _⟩ := ht
        cases Q2 with
        | nil => cases h
        | cons c Q3 => cases h)
    (fun es h => by cases h),
   (writePage_readPage cfgData fsRoot (postPage "notes/a.md" "hello") (bytesOf "hello")
      rfl (by decide) rfl).1 (by decide)⟩

/-- C5 fails as stated: the non-empty path `../x` is refused by the containment
check, so the authorised `POST` is answered 400 and the following `GET` does
not return the body; the non-empty path `.` names the storage root, a
directory, so the `POST` is answered 500 and the `GET` 404; and a path with a
NUL byte and a name of 256 bytes are refused by the operating system, so the
`POST` is answered 500 and the `GET` 404. -/
theorem writePage_readPage_fails :
    (postPage "../x" "hello").path ≠ [] ∧
    authorized cfgData.authTokens (postPage "../x" "hello").authorization = true ∧
    (pageHandler cfgData fsData (postPage "../x" "hello")).1.status = 400 ∧
    (pageHandler cfgData (pageHandler cfgData fsData (postPage "../x" "hello")).2
        (getPage "../x".toList)).1 ≠ ⟨200, .raw (bytesOf "hello")⟩ ∧
    (pageHandler cfgData fsData (postPage "." "hello")).1.status = 500 ∧
    (pageHandler cfgData (pageHandler cfgData fsData (postPage "." "hello")).2
        (getPage ".".toList)).1.status = 404 ∧
    (pageHandler cfgData fsRoot (postTo nulPath "hello")).1.status = 500 ∧
    (pageHandler cfgData (pageHandler cfgData fsRoot (postTo nulPath "hello")).2
        (getPage nulPath)).1.status = 404 ∧
    (pageHandler cfgData fsRoot (postTo longName "hello")).1.status = 500 ∧
    (pageHandler cfgData (pageHandler cfgData fsRoot (postTo longName "hello")).2
        (getPage longName)).1.status = 404 := by
  refine ⟨by decide, by decide, by decide, by decide, by decide, by decide, by decide,
    by decide, ?_, ?_⟩
  · set_option maxRecDepth 100000 in decide
  · set_option maxRecDepth 100000 in decide

/-- Scenario B and an empty directory as instances of C9: `DELETE
dir?path=notes` with `notes` holding `a.md` is answered 400 and changes
nothing; `DELETE dir?path=empty` is answered 200 and `empty` leaves the
listing of `/data`. -/
theorem deleteDirectory_spec_witness :
    dirHandler cfgData fsData (authedRequest "DELETE" "notes") =
      (httpError "Directory not empty or could not be removed" 400, fsData) ∧
    ((dirHandler cfgData fsEmptyDir (authedRequest "DELETE" "empty")).1.status = 200 ∧
      (dirHandler cfgData fsEmptyDir (authedRequest "DELETE" "empty")).2.lookup
        (pathSegments (Join [cfgData.storagePath, (authedRequest "DELETE" "empty").path])) = none ∧
      ∃ listing, ReadDir (dirHandler cfgData fsEmptyDir (authedRequest "DELETE" "empty")).2
          (Dir (Join [cfgData.storagePath, (authedRequest "DELETE" "empty").path])) =
            some listing ∧
        Base (Join [cfgData.storagePath, (authedRequest "DELETE" "empty").path]) ∉
          listing.map Prod.fst) :=
  ⟨(deleteDirectory_spec cfgData fsData (authedRequest "DELETE" "notes")
      (by decide) rfl (by decide) (by decide)).1 _ _ rfl,
   (deleteDirectory_spec cfgData fsEmptyDir (authedRequest "DELETE" "empty")
      (by decide) rfl (by decide) (by decide)).2 rfl (by decide)⟩

/-- Scenario C as an instance of C10: `POST dir?path=notes` with the name `sub`
twice: the first is answered 200, the second 500 without change; and with the
missing parent `missing` the answer is the same 500, without change. -/
theorem createDirectory_twice_witness :
    (dirHandler cfgData fsData (mkdirRequest "notes" "sub")).1.status = 200 ∧
    dirHandler cfgData (dirHandler cfgData fsData (mkdirRequest "notes" "sub")).2
        (mkdirRequest "notes" "sub") =
      (httpError "Failed to create directory" 500,
        (dirHandler cfgData fsData (mkdirRequest "notes" "sub")).2) ∧
    dirHandler cfgData fsData (mkdirRequest "missing" "sub") =
      (httpError "Failed to create directory" 500, fsData) :=
  ⟨(createDirectory_twice cfgData fsData (mkdirRequest "notes" "sub") "sub".toList
      (by decide) rfl (by decide) (by decide) rfl).2.1 (by decide) (by decide) _ rfl rfl,
   (createDirectory_twice cfgData fsData (mkdirRequest "notes" "sub") "sub".toList
      (by decide) rfl (by decide) (by decide) rfl).1 (by decide),
   (createDirectory_twice cfgData fsData (mkdirRequest "missing" "sub") "sub".toList
      (by decide) rfl (by decide) (by decide) rfl).2.2 (by decide) rfl⟩

/-- C10 fails as stated: the second creation of `notes/sub` (the target exists)
and the creation of `missing/sub` (the parent is missing) are answered with the
very same response, status 500 and body `Failed to create directory`; in the
existing directory `notes` the first creation with the name `a.md`, which is
taken, and with a name of 256 bytes, which the operating system refuses, is
answered 500; and with the missing parent `missing` the name `../sub` is
answered 200 and creates `/data/sub`. -/
theorem createDirectory_failures_same_response :
    (dirHandler cfgData fsData (mkdirRequest "notes" "sub")).1.status = 200 ∧
    ReadDir fsData "/data/missing".toList = none ∧
    (dirHandler cfgData (dirHandler cfgData fsData (mkdirRequest "notes" "sub")).2
        (mkdirRequest "notes" "sub")).1 =
      (dirHandler cfgData fsData (mkdirRequest "missing" "sub")).1 ∧
    (dirHandler cfgData fsData (mkdirRequest "missing" "sub")).1 =
      httpError "Failed to create directory" 500 ∧
    (∃ es, fsData.lookup (pathSegments (Join [cfgData.storagePath, "notes".toList])) =
      some (.dir es)) ∧
    (dirHandler cfgData fsData (mkdirRequest "notes" "a.md")).1.status = 500 ∧
    (dirHandler cfgData fsData (mkdirNamed "notes" longName)).1.status = 500 ∧
    (dirHandler cfgData fsData (mkdirRequest "missing" "../sub")).1.status = 200 ∧
    ReadDir (dirHandler cfgData fsData (mkdirRequest "missing" "../sub")).2
      "/data/sub".toList = some [] := by
  refine ⟨by decide, by decide, by decide, by decide, ⟨_, rfl⟩, by decide, ?_, by decide,
    by decide⟩
  set_option maxRecDepth 100000 in decide

end Docs

namespace Docs

/-! ## Search -/

/-- Induction over the file system tree: a property of regular files that
passes from the entries of a directory to the directory holds of every node. -/
theorem Node.induct {P : Node → Prop} (hfile : ∀ d, P (.file d))
    (hdir : ∀ es : List (GoString × Node), (∀ e ∈ es, P e.2) → P (.dir es)) (n : Node) : P n :=
  Node.rec (motive_1 := P) (motive_2 := fun es => ∀ e ∈ es, P e.2) (motive_3 := fun e => P e.2)
    hfile (fun es ih => hdir es ih) (fun e h => absurd h (List.not_mem_nil e))
    (fun hd tl h1 h2 e he => by
      rcases List.mem_cons.1 he with h | h
      · rw [h]; exact h1
      · exact h2 e h)
    (fun _ _ h => h) n

theorem wf_dir (es : List (GoString × Node)) : (Node.dir es).wf = wfEntries es := by
  simp [Node.wf]

theorem wfEntries_cons (n : GoString) (c : Node) (rest : List (GoString × Node)) :
    wfEntries ((n, c) :: rest) =
      (validName n && rest.all (fun e => decide (e.1 ≠ n)) && c.wf && wfEntries rest) := by
  simp [wfEntries]

theorem wfEntries_cons_iff (n : GoString) (c : Node) (rest : List (GoString × Node)) :
    wfEntries ((n, c) :: rest) = true ↔
      validName n = true ∧ (∀ e ∈ rest, e.1 ≠ n) ∧ c.wf = true ∧ wfEntries rest = true := by
  rw [wfEntries_cons]
  simp only [Bool.and_eq_true, List.all_eq_true, decide_eq_true_eq, and_assoc]

theorem wfEntries_mem (es : List (GoString × Node)) (h : wfEntries es = true) :
    ∀ e ∈ es, validName e.1 = true ∧ e.2.wf = true := by
  induction es with
  | nil => intro e he; exact absurd he (List.not_mem_nil e)
  | cons hd tl ih =>
    obtain ⟨n, c⟩ := hd
    obtain ⟨h1, _, h3, h4⟩ := (wfEntries_cons_iff n c tl).1 h
    intro e he
    rcases List.mem_cons.1 he with e1 | e1
    · rw [e1]; exact ⟨h1, h3⟩
    · exact ih h4 e e1

theorem filesUnder_file (d : Bytes) : filesUnder (.file d) = [([], d)] := by
  simp [filesUnder]

theorem filesUnder_dir (es : List (GoString × Node)) :
    filesUnder (.dir es) = filesUnderEntries es := by
  simp [filesUnder]

theorem filesUnderEntries_cons (n : GoString) (c : Node) (rest : List (GoString × Node)) :
    filesUnderEntries ((n, c) :: rest) =
      (filesUnder c).map (fun p => (n :: p.1, p.2)) ++ filesUnderEntries rest := by
  simp [filesUnderEntries]

theorem lookupEntry_mem (name : GoString) (c : Node) (es : List (GoString × Node))
    (h : lookupEntry name es = some c) : (name, c) ∈ es := by
  induction es with
  | nil => cases h
  | cons hd tl ih =>
    obtain ⟨n, c0⟩ := hd
    rw [lookupEntry_cons] at h
    by_cases hn : n = name
    · rw [if_pos hn] at h
      cases h
      rw [hn]
      exact List.mem_cons_self _ _
    · rw [if_neg hn] at h
      exact List.mem_cons_of_mem _ (ih h)

/-- In a well-formed tree every path that resolves consists of valid names and
resolves to a well-formed node. -/
theorem wf_lookup (rel : List GoString) (n x : Node) (hwf : n.wf = true)
    (h : n.lookup rel = some x) : (∀ s ∈ rel, validName s = true) ∧ x.wf = true := by
  induction rel generalizing n with
  | nil =>
    rw [lookup_nil] at h
    cases h
    exact ⟨fun s hs => absurd hs (List.not_mem_nil s), hwf⟩
  | cons a rest ih =>
    cases n with
    | file d => rw [lookup_file_cons] at h; cases h
    | dir es =>
      rw [lookup_dir_cons] at h
      cases hl : lookupEntry a es with
      | none => rw [hl] at h; cases h
      | some c =>
        simp only [hl] at h
        rw [wf_dir] at hwf
        obtain ⟨h1, h2⟩ := wfEntries_mem es hwf (a, c) (lookupEntry_mem a c es hl)
        obtain ⟨h3, h4⟩ := ih c h2 h
        refine ⟨?_, h4⟩
        intro s hs
        rcases List.mem_cons.1 hs with e | e
        · rw [e]; exact h1
        · exact h3 s e

theorem filesUnderEntries_head (es : List (GoString × Node)) (rel : List GoString)
    (data : Bytes) (h : (rel, data) ∈ filesUnderEntries es) :
    ∃ a rest, rel = a :: rest ∧ a ∈ es.map Prod.fst := by
  induction es with
  | nil => simp [filesUnderEntries] at h
  | cons hd tl ih =>
    obtain ⟨m, c⟩ := hd
    rw [filesUnderEntries_cons] at h
    rcases List.mem_append.1 h with h | h
    · obtain ⟨p, _, hp⟩ := List.mem_map.1 h
      cases hp
      exact ⟨m, p.1, rfl, List.mem_cons_self _ _⟩
    · obtain ⟨a, rest, h1, h2⟩ := ih h
      exact ⟨a, rest, h1, List.mem_cons_of_mem _ h2⟩

/-- In a well-formed tree the regular files below a node are the paths that
resolve to a regular file. -/
theorem mem_filesUnder (n : Node) :
    ∀ (rel : List GoString) (data : Bytes), n.wf = true →
      ((rel, data) ∈ filesUnder n ↔ n.lookup rel = some (.file data)) := by
  induction n using Node.induct with
  | hfile d =>
    intro rel data _
    rw [filesUnder_file, List.mem_singleton]
    cases rel with
    | nil =>
      rw [lookup_nil]
      constructor
      · intro h; cases h; rfl
      · intro h; cases h; rfl
    | cons a rest =>
      rw [lookup_file_cons]
      constructor
      · intro h; cases h
      · intro h; cases h
  | hdir es ih =>
    intro rel data hwf
    rw [filesUnder_dir]
    rw [wf_dir] at hwf
    induction es with
    | nil =>
      simp only [filesUnderEntries, List.not_mem_nil, false_iff]
      cases rel with
      | nil => rw [lookup_nil]; intro h; cases h
      | cons a rest => rw [lookup_empty_dir_cons]; intro h; cases h
    | cons hd tl ih2 =>
      obtain ⟨m, c⟩ := hd
      obtain ⟨h1, h2, h3, h4⟩ := (wfEntries_cons_iff m c tl).1 hwf
      have ihtl := ih2 (fun e he => ih e (List.mem_cons_of_mem _ he)) h4
      have ihc := ih (m, c) (List.mem_cons_self _ _)
      rw [filesUnderEntries_cons, List.mem_append, ihtl]
      cases rel with
      | nil =>
        rw [lookup_nil, lookup_nil]
        constructor
        · rintro (h | h)
          · obtain ⟨p, _, hp⟩ := List.mem_map.1 h
            cases hp
          · cases h
        · intro h; cases h
      | cons a rest =>
        rw [lookup_dir_cons, lookup_dir_cons, lookupEntry_cons]
        by_cases hma : m = a
        · subst hma
          rw [if_pos rfl]
          have hnone : lookupEntry m tl = none := by
            rw [lookupEntry_eq_none_iff]
            intro hm
            obtain ⟨e, he, he2⟩ := List.mem_map.1 hm
            exact h2 e he he2
          rw [hnone]
          simp only
          rw [← ihc rest data h3]
          constructor
          · rintro (h | h)
            · obtain ⟨p, hp, hp2⟩ := List.mem_map.1 h
              cases hp2
              exact hp
            · cases h
          · intro h
            exact Or.inl (List.mem_map.2 ⟨(rest, data), h, rfl⟩)
        · rw [if_neg hma]
          constructor
          · rintro (h | h)
            · obtain ⟨p, _, hp2⟩ := List.mem_map.1 h
              cases hp2
              exact absurd rfl hma
            · exact h
          · intro h
            exact Or.inr h

/-- In a well-formed tree no path is listed twice among the regular files
below a node. -/
theorem nodup_filesUnder (n : Node) : n.wf = true → ((filesUnder n).map Prod.fst).Nodup := by
  induction n using Node.induct with
  | hfile d => intro _; simp [filesUnder_file]
  | hdir es ih =>
    intro hwf
    rw [filesUnder_dir]
    rw [wf_dir] at hwf
    induction es with
    | nil => simp [filesUnderEntries]
    | cons hd tl ih2 =>
      obtain ⟨m, c⟩ := hd
      obtain ⟨h1, h2, h3, h4⟩ := (wfEntries_cons_iff m c tl).1 hwf
      have ihtl := ih2 (fun e he => ih e (List.mem_cons_of_mem _ he)) h4
      have ihc := ih (m, c) (List.mem_cons_self _ _) h3
      rw [filesUnderEntries_cons, List.map_append, List.map_map]
      refine List.Nodup.append ?_ ihtl ?_
      · have : (Prod.fst ∘ fun p : List GoString × Bytes => (m :: p.1, p.2)) =
            (fun l => m :: l) ∘ Prod.fst := rfl
        rw [this, ← List.map_map]
        exact List.Nodup.map (fun a b h => by injection h) ihc
      · intro x hx1 hx2
        obtain ⟨p, _, hp⟩ := List.mem_map.1 hx1
        obtain ⟨q, hq, hq2⟩ := List.mem_map.1 hx2
        obtain ⟨a, rest, h5, h6⟩ := filesUnderEntries_head tl q.1 q.2 hq
        obtain ⟨e, he, he2⟩ := List.mem_map.1 h6
        rw [← hp, h5] at hq2
        simp only [Function.comp] at hq2
        injection hq2 with h7 h8
        exact h2 e he (he2.trans h7)

theorem walk_file (fn : GoString → GoString → Bool → List Hit) (path name : GoString)
    (d : Bytes) :
    walk fn path name (.file d) = fn path name false := by
  simp [walk]

theorem walk_dir (fn : GoString → GoString → Bool → List Hit) (path name : GoString)
    (es : List (GoString × Node)) :
    walk fn path name (.dir es) = fn path name true ++ walkEntries fn path es := by
  simp [walk]

theorem walkEntries_cons (fn : GoString → GoString → Bool → List Hit) (path : GoString)
    (n : GoString) (c : Node) (rest : List (GoString × Node)) :
    walkEntries fn path ((n, c) :: rest) =
      walk fn (Join [path, n]) n c ++ walkEntries fn path rest := by
  simp [walkEntries]

/-- The walk below a valid absolute path calls the callback once for every
regular file below the node, with the path and the name of the file. -/
theorem walk_eq_flatMap (fn : GoString → GoString → Bool → List Hit)
    (hfn : ∀ path name, fn path name true = []) (n : Node) :
    ∀ (A : List GoString) (name : GoString), (∀ s ∈ A, validName s = true) → n.wf = true →
      walk fn (renderPath true A) name n =
        (filesUnder n).flatMap (fun p =>
          fn (renderPath true (A ++ p.1)) (p.1.getLast?.getD name) false) := by
  induction n using Node.induct with
  | hfile d =>
    intro A name _ _
    simp [walk_file, filesUnder_file]
  | hdir es ih =>
    intro A name hA hwf
    rw [walk_dir, hfn, List.nil_append, filesUnder_dir]
    rw [wf_dir] at hwf
    clear hfn
    induction es with
    | nil => simp [walkEntries, filesUnderEntries]
    | cons hd tl ih2 =>
      obtain ⟨m, c⟩ := hd
      obtain ⟨h1, _, h3, h4⟩ := (wfEntries_cons_iff m c tl).1 hwf
      rw [walkEntries_cons, filesUnderEntries_cons, List.flatMap_append,
        ih2 (fun e he => ih e (List.mem_cons_of_mem _ he)) h4,
        join_renderPath_name A hA m h1,
        ih (m, c) (List.mem_cons_self _ _) (A ++ [m]) m
          (fun s hs => by
            rcases List.mem_append.1 hs with h | h
            · exact hA s h
            · rw [List.mem_singleton.1 h]; exact h1) h3]
      congr 1
      rw [List.flatMap_map]
      congr 1
      funext p
      simp only [List.append_assoc, List.singleton_append]
      congr 1
      cases p.1 with
      | nil => rfl
      | cons a as =>
        rw [List.getLast?_cons_cons]
        cases h : (a :: as).getLast? with
        | none => simp at h
        | some x => rfl

end Docs

namespace Docs


theorem lookup_append (A B : List GoString) (fs : Node) :
    fs.lookup (A ++ B) =
      match fs.lookup A with
      | some n => n.lookup B
      | none => none := by
  induction A generalizing fs with
  | nil => rw [List.nil_append, lookup_nil]
  | cons a rest ih =>
    cases fs with
    | file d => rfl
    | dir es =>
      rw [List.cons_append, lookup_dir_cons, lookup_dir_cons]
      cases lookupEntry a es with
      | none => rfl
      | some c => exact ih c

theorem dropCommon_append (l x : List GoString) : dropCommon l (l ++ x) = ([], x) := by
  induction l with
  | nil => cases x <;> rfl
  | cons a as ih => simp [dropCommon, ih]

theorem relElems_renderPath (X : List GoString) (hX : ∀ s ∈ X, validName s = true) :
    relElems (renderPath true X) = [] :: X := by
  unfold relElems
  rw [isAbs_renderPath, if_pos rfl, pathSegments_renderPath X hX]

/-- The path of a descendant relative to an absolute cleaned root: the names
from the root to the descendant, joined. -/
theorem rel_renderPath (R rel : List GoString) (hR : ∀ s ∈ R, validName s = true)
    (hrel : ∀ s ∈ rel, validName s = true) (hne : rel ≠ []) :
    Rel (renderPath true R) (renderPath true (R ++ rel)) = some (joinSep rel) := by
  have hRrel : ∀ s ∈ R ++ rel, validName s = true := by
    intro s hs
    rcases List.mem_append.1 hs with h | h
    · exact hR s h
    · exact hrel s h
  have hneq : renderPath true (R ++ rel) ≠ renderPath true R := by
    intro h
    have := congrArg pathSegments h
    rw [pathSegments_renderPath _ hRrel, pathSegments_renderPath _ hR] at this
    exact hne (List.append_right_eq_self.1 this)
  have hdot : renderPath true R ≠ dot := by
    intro h
    have := congrArg IsAbs h
    rw [isAbs_renderPath] at this
    revert this; decide
  unfold Rel
  simp only [clean_renderPath R hR, clean_renderPath _ hRrel, if_neg hneq, if_neg hdot,
    isAbs_renderPath, ne_eq, not_true_eq_false, if_false,
    relElems_renderPath R hR, relElems_renderPath _ hRrel]
  rw [show ([] : GoString) :: (R ++ rel) = ([] :: R) ++ rel from rfl, dropCommon_append]

/-- The callback of the search on a regular file that can be read and has a
relative path: one hit when the name matches or the file is markdown and its
content matches, none otherwise. -/
theorem searchVisit_file (lower : Char → Char) (cfg : Config) (fs : Node)
    (query path name : GoString) (data : Bytes) (rel : GoString)
    (hread : ReadFile fs path = some data) (hrel : Rel cfg.storagePath path = some rel) :
    searchVisit lower cfg fs query path name false =
      if Contains (ToLower lower name) (ToLower lower query) = true ∨
          (Ext name = mdExt ∧ Contains (ToLower lower (decodeUTF8 data)) (ToLower lower query) = true)
      then [⟨rel, name⟩] else [] := by
  unfold searchVisit
  simp only [hread, hrel]
  by_cases h1 : Ext name = mdExt <;>
    by_cases h2 : Contains (ToLower lower name) (ToLower lower query) = true <;>
    by_cases h3 : Contains (ToLower lower (decodeUTF8 data)) (ToLower lower query) = true <;>
    simp [h1, h2, h3]

theorem searchVisit_dir (lower : Char → Char) (cfg : Config) (fs : Node)
    (query path name : GoString) : searchVisit lower cfg fs query path name true = [] := by
  simp [searchVisit]

end Docs

namespace Docs


theorem mem_hitOf (lower : Char → Char) (query : GoString) (p : List GoString × Bytes)
    (x : Hit) :
    x ∈ hitOf lower query p ↔
      (Contains (ToLower lower (p.1.getLast?.getD [])) (ToLower lower query) = true ∨
        (Ext (p.1.getLast?.getD []) = mdExt ∧
          Contains (ToLower lower (decodeUTF8 p.2)) (ToLower lower query) = true)) ∧
      x = ⟨joinSep p.1, p.1.getLast?.getD []⟩ := by
  unfold hitOf
  split_ifs with h
  · rw [List.mem_singleton]
    exact ⟨fun hx => ⟨h, hx⟩, fun hx => hx.2⟩
  · exact ⟨fun hx => absurd hx (List.not_mem_nil _), fun hx => absurd hx.1 h⟩

/-- The walk of the search below a directory of a well-formed tree, as the
hits of the regular files below it. -/
theorem walk_search (lower : Char → Char) (cfg : Config) (fs : Node) (query : GoString)
    (R : List GoString) (es : List (GoString × Node)) (name : GoString)
    (hR : ∀ s ∈ R, validName s = true) (hroot : cfg.storagePath = renderPath true R)
    (hwf : fs.wf = true) (hl : fs.lookup R = some (.dir es)) :
    walk (searchVisit lower cfg fs query) (renderPath true R) name (.dir es) =
      (filesUnder (.dir es)).flatMap (hitOf lower query) := by
  have hwfd : (Node.dir es).wf = true := (wf_lookup R fs _ hwf hl).2
  rw [walk_eq_flatMap _ (searchVisit_dir lower cfg fs query) (.dir es) R name hR hwfd]
  apply List.flatMap_congr
  intro p hp
  obtain ⟨rel, data⟩ := p
  have hlk : (Node.dir es).lookup rel = some (.file data) :=
    (mem_filesUnder (.dir es) rel data hwfd).1 hp
  have hrel : ∀ s ∈ rel, validName s = true := (wf_lookup rel _ _ hwfd hlk).1
  have hne : rel ≠ [] := by
    rintro rfl
    rw [lookup_nil] at hlk
    cases hlk
  have hfs : fs.lookup (R ++ rel) = some (.file data) := by
    rw [lookup_append, hl]
    exact hlk
  have hRrel : ∀ s ∈ R ++ rel, validName s = true := by
    intro s hs
    rcases List.mem_append.1 hs with h | h
    · exact hR s h
    · exact hrel s h
  have hread : ReadFile fs (renderPath true (R ++ rel)) = some data := by
    unfold ReadFile
    rw [pathSegments_renderPath _ hRrel, hfs]
  have hlast : rel.getLast?.getD name = rel.getLast?.getD [] := by
    cases rel with
    | nil => exact absurd rfl hne
    | cons a as =>
      cases h : (a :: as).getLast? with
      | none => simp at h
      | some x => rfl
  simp only [hlast]
  rw [searchVisit_file lower cfg fs query _ _ data (joinSep rel) hread
    (by rw [hroot]; exact rel_renderPath R rel hR hrel hne)]
  rfl

/-- C6: for an absolute cleaned storage root that is not a regular file, a
well-formed tree and a non-empty query, `searchHandler` answers 200 with a list
of hits without repetition, and a hit is in the list exactly when it is the
relative path and the name of a regular file below the root whose lower-cased
name contains the lower-cased query, or whose extension is `.md` and whose
lower-cased content contains the lower-cased query. -/
theorem search_results (lower : Char → Char) (cfg : Config) (fs : Node) (r : Request)
    (habs : IsAbs cfg.storagePath = true) (hclean : Clean cfg.storagePath = cfg.storagePath)
    (hwf : fs.wf = true) (hq : r.q ≠ [])
    (hroot : ∀ d, fs.lookup (pathSegments cfg.storagePath) ≠ some (.file d)) :
    ∃ hits, searchHandler lower cfg fs r = (⟨200, .hits hits⟩, fs) ∧ hits.Nodup ∧
      ∀ hit, hit ∈ hits ↔
        ∃ rel data, fs.lookup (pathSegments cfg.storagePath ++ rel) = some (.file data) ∧
          hit.path = joinSep rel ∧ rel.getLast? = some hit.name ∧
          (Contains (ToLower lower hit.name) (ToLower lower r.q) = true ∨
            (Ext hit.name = mdExt ∧
              Contains (ToLower lower (decodeUTF8 data)) (ToLower lower r.q) = true)) := by
  obtain ⟨R, hR, hrootR⟩ := exists_segments_of_clean cfg.storagePath habs hclean
  have hseg : pathSegments cfg.storagePath = R := by rw [hrootR, pathSegments_renderPath R hR]
  rw [hseg] at hroot
  rw [hseg]
  refine ⟨Walk fs cfg.storagePath (searchVisit lower cfg fs r.q), ?_, ?_⟩
  · unfold searchHandler
    simp only [hq, if_false]
  unfold Walk
  rw [hseg]
  cases hl : fs.lookup R with
  | none =>
    refine ⟨List.nodup_nil, ?_⟩
    intro hit
    simp only [List.not_mem_nil, false_iff]
    rintro ⟨rel, data, h, _⟩
    rw [lookup_append, hl] at h
    cases h
  | some n =>
    cases n with
    | file d => exact absurd hl (hroot d)
    | dir es =>
      simp only
      rw [hrootR, walk_search lower cfg fs r.q R es _ hR hrootR hwf hl]
      have hwfd : (Node.dir es).wf = true := (wf_lookup R fs _ hwf hl).2
      have hmem : ∀ rel data, (rel, data) ∈ filesUnder (.dir es) ↔
          fs.lookup (R ++ rel) = some (.file data) := by
        intro rel data
        rw [mem_filesUnder (.dir es) rel data hwfd, lookup_append, hl]
      have hvalid : ∀ p ∈ filesUnder (.dir es), p.1 ≠ [] ∧ ∀ s ∈ p.1, validName s = true := by
        intro p hp
        have hlk := (mem_filesUnder (.dir es) p.1 p.2 hwfd).1 hp
        refine ⟨?_, (wf_lookup p.1 _ _ hwfd hlk).1⟩
        intro h
        rw [h, lookup_nil] at hlk
        cases hlk
      constructor
      · rw [List.nodup_flatMap]
        constructor
        · intro p _
          unfold hitOf
          split_ifs
          · exact List.nodup_singleton _
          · exact List.nodup_nil
        · have hnd := nodup_filesUnder (.dir es) hwfd
          rw [List.Nodup, List.pairwise_map] at hnd
          refine hnd.imp_of_mem ?_
          intro a b ha hb hab
          show List.Disjoint (hitOf lower r.q a) (hitOf lower r.q b)
          intro x hxa hxb
          rw [mem_hitOf] at hxa hxb
          have hj : joinSep a.1 = joinSep b.1 := by
            have := hxa.2.symm.trans hxb.2
            injection this
          apply hab
          have h1 := splitPath_joinSep a.1 (hvalid a ha).1
            (fun s hs => ((validName_iff s).1 ((hvalid a ha).2 s hs)).2.2.2)
          have h2 := splitPath_joinSep b.1 (hvalid b hb).1
            (fun s hs => ((validName_iff s).1 ((hvalid b hb).2 s hs)).2.2.2)
          rw [← h1, ← h2, hj]
      · intro hit
        rw [List.mem_flatMap]
        constructor
        · rintro ⟨⟨rel, data⟩, hp, hh⟩
          rw [mem_hitOf] at hh
          obtain ⟨hc, hh⟩ := hh
          subst hh
          have hne := (hvalid _ hp).1
          have hlast : rel.getLast? = some (rel.getLast?.getD []) := by
            cases h : rel.getLast? with
            | none => exact absurd (List.getLast?_eq_none_iff.1 h) hne
            | some x => rfl
          exact ⟨rel, data, (hmem rel data).1 hp, rfl, hlast, hc⟩
        · rintro ⟨rel, data, h1, h2, h3, h4⟩
          refine ⟨(rel, data), (hmem rel data).2 h1, ?_⟩
          have hname : rel.getLast?.getD [] = hit.name := by rw [h3]; rfl
          rw [mem_hitOf]
          simp only [hname]
          refine ⟨h4, ?_⟩
          cases hit
          simp only at h2 ⊢
          rw [h2]

/-- Scenario D as an instance of C6: with `notes/a.md` holding `hello`, the
search for `hello` answers the one hit `notes/a.md`, `a.md`. -/
theorem search_results_witness :
    searchHandler Char.toLower cfgData fsData searchHello =
      (⟨200, .hits [⟨"notes/a.md".toList, "a.md".toList⟩]⟩, fsData) ∧
    ∃ hits, searchHandler Char.toLower cfgData fsData searchHello = (⟨200, .hits hits⟩, fsData) ∧
      hits.Nodup ∧
      ∀ hit, hit ∈ hits ↔
        ∃ rel data, fsData.lookup (pathSegments cfgData.storagePath ++ rel) = some (.file data) ∧
          hit.path = joinSep rel ∧ rel.getLast? = some hit.name ∧
          (Contains (ToLower Char.toLower hit.name) (ToLower Char.toLower searchHello.q) = true ∨
            (Ext hit.name = mdExt ∧
              Contains (ToLower Char.toLower (decodeUTF8 data)) (ToLower Char.toLower searchHello.q) = true)) :=
  ⟨rfl,
   search_results Char.toLower cfgData fsData searchHello (by decide) (by decide) (by decide)
     (by decide) (fun d h => by
       have hl : fsData.lookup (pathSegments cfgData.storagePath) =
           some (.dir [("notes".toList, .dir [("a.md".toList, .file (bytesOf "hello"))])]) := rfl
       rw [hl] at h
       cases h)⟩

end Docs
